import Mathlib

/-!
Verification of the lesson packaging pipeline (`tools/create_package.py`).

The filesystem is modelled shallowly: a path is its list of components
(`os.path.join a b` becomes `a ++ [b]`; the script's hard-coded base is a
Windows path, so rendered paths use the backslash separator), a regular
file is a record of its byte content and its metadata, and the filesystem
state is an association list of files, a list of existing directories, and
a separate table of ZIP archives (`shutil.make_archive` output, modelled
as the snapshot of relative paths and stored file contents).
-/

set_option maxRecDepth 10000

namespace CreatePackage

abbrev Path := List String

/-- A regular file: byte content plus metadata (`shutil.copy2` copies both). -/
structure FileRec where
  content : String
  meta : Nat
  deriving DecidableEq, Repr

/-- One entry of a ZIP archive: path relative to the archive root, a
directory flag, and the stored byte content (empty for directories). -/
structure ZEntry where
  rel : Path
  isDir : Bool
  data : String
  deriving DecidableEq, Repr

/-- Filesystem state: regular files, directories, and ZIP archives. -/
structure FS where
  files : List (Path × FileRec)
  dirs : List Path
  archives : List (Path × List ZEntry)
  deriving DecidableEq, Repr

/-- First-match association lookup. -/
def plook {β : Type} : List (Path × β) → Path → Option β
  | [], _ => none
  | (q, v) :: rest, p => if q = p then some v else plook rest p

/-- Overwrite-or-append update, keeping the position of an existing key. -/
def pset {β : Type} : List (Path × β) → Path → β → List (Path × β)
  | [], p, v => [(p, v)]
  | (q, w) :: rest, p, v =>
    if q = p then (p, v) :: rest else (q, w) :: pset rest p v

/-- Boolean list membership for paths. -/
def dmem : List Path → Path → Bool
  | [], _ => false
  | q :: rest, p => if q = p then true else dmem rest p

/-- Occurrence count of a string in a list of strings. -/
def lcount : List String → String → Nat
  | [], _ => 0
  | s :: rest, t => (if s = t then 1 else 0) + lcount rest t

/-- `os.path.exists`: true for regular files, directories and archives. -/
def fsExists (fs : FS) (p : Path) : Bool :=
  (plook fs.files p).isSome || dmem fs.dirs p || (plook fs.archives p).isSome

/-- The chain of ancestor paths `os.makedirs` ensures, shortest first. -/
def ancestors (p : Path) : List Path :=
  (List.range p.length).map (fun i => p.take (i + 1))

/-- Append a directory unless already present. -/
def addDir (ds : List Path) (q : Path) : List Path :=
  if dmem ds q then ds else ds ++ [q]

/-- `os.makedirs(p, exist_ok=True)`: create `p` and any missing ancestors. -/
def makedirs (fs : FS) (p : Path) : FS :=
  { fs with dirs := (ancestors p).foldl addDir fs.dirs }

/-- `shutil.copy2 src dst`: copy content and metadata, overwriting any
existing `dst`. `copy2` requires `src` to be a regular file; on a state
where the script's existence guard passes but `src` is only a directory
the Python call raises — a state no claim about completed runs reaches —
and there the model leaves the filesystem unchanged. -/
def copy2 (fs : FS) (src dst : Path) : FS :=
  match plook fs.files src with
  | some fd => { fs with files := pset fs.files dst fd }
  | none => fs

/-- `open(p, "w").write(s)`: overwrite `p` with content `s`; metadata is
not copied from anywhere (modelled as `0`). -/
def writeTxt (fs : FS) (p : Path) (s : String) : FS :=
  { fs with files := pset fs.files p ⟨s, 0⟩ }

/-- Python's `str.endswith`: a byte-level suffix test. -/
def strEndsWith (s suf : String) : Bool := List.isSuffixOf suf.data s.data

/-- Name of `q` when it is an immediate child of `p`. -/
def childName (p q : Path) : Option String :=
  if q.length = p.length + 1 && p.isPrefixOf q then q.getLast? else none

/-- `os.listdir p`: names of the immediate children recorded in the state,
each name once. -/
def listdir (fs : FS) (p : Path) : List String :=
  ((fs.files.map Prod.fst ++ fs.dirs).filterMap (childName p)).dedup

/- Constants of the script. -/

def base_dir : Path := ["c:", "Users", "atchy", "Streamli"]

def package_name : String := "microbit_1st_grade_lesson_package"

def package_dir : Path := base_dir ++ [package_name]

def subdirs : List String := ["guides", "worksheets", "templates", "qrcodes", "resources"]

/-- The manifest: the seven fixed (source, destination) pairs. -/
def copies : List (Path × Path) := [
  (base_dir ++ ["teacher_guide_microbit_1st_grade.md"],
   package_dir ++ ["guides", "teacher_guide_microbit_1st_grade.md"]),
  (base_dir ++ ["teacher_guide_microbit_1st_grade.pdf"],
   package_dir ++ ["guides", "teacher_guide_microbit_1st_grade.pdf"]),
  (base_dir ++ ["student_worksheet_microbit_1st_grade.md"],
   package_dir ++ ["worksheets", "student_worksheet_microbit_1st_grade.md"]),
  (base_dir ++ ["student_worksheet_microbit_1st_grade.pdf"],
   package_dir ++ ["worksheets", "student_worksheet_microbit_1st_grade.pdf"]),
  (base_dir ++ ["templates", "makecode_smile_template.ts"],
   package_dir ++ ["templates", "makecode_smile_template.ts"]),
  (base_dir ++ ["templates", "microbit_smile_template.py"],
   package_dir ++ ["templates", "microbit_smile_template.py"]),
  (base_dir ++ ["templates", "README_generate_hex.md"],
   package_dir ++ ["resources", "README_generate_hex.md"])]

/-- Windows rendering of a component list (`os.path.join` with `\`). -/
def pathStr (p : Path) : String := String.intercalate "\\" p

/-- `os.path.basename`: the last component. -/
def basename (p : Path) : String := p.getLast?.getD ""

def qrcodes_dir : Path := base_dir ++ ["qrcodes"]

def qrSrc (n : String) : Path := qrcodes_dir ++ [n]

def qrDst (n : String) : Path := package_dir ++ ["qrcodes", n]

def readme_path : Path := package_dir ++ ["README.md"]

def zip_path : Path := base_dir ++ [package_name ++ ".zip"]

/-- The README text the script writes, verbatim. -/
def readme_content : String := "# 小学校1年生 プログラミング授業パッケージ\n## タブレット＋micro:bit\n\n### 📂 ファイル構成\n\n- **guides/** — 教師向け完全指導案（Markdown/PDF）\n- **worksheets/** — 児童用ワークシート（Markdown/PDF）\n- **templates/** — MakeCode/MicroPython テンプレート\n- **qrcodes/** — リソースへのQRコード（印刷用）\n- **resources/** — .hex生成方法ガイド\n\n### 🚀 使い方\n\n1. **教師の準備**\n   - `guides/teacher_guide_microbit_1st_grade.pdf` を印刷・確認\n   - `templates/makecode_smile_template.ts` でMakeCode上に.hexを作成\n   - `qrcodes/` のQR画像を印刷\n\n2. **授業実施**\n   - `worksheets/student_worksheet_microbit_1st_grade.pdf` を児童に配布\n   - MakeCodeのQRコード（タブレット用）を提示\n\n3. **micro:bit転送**\n   - `resources/README_generate_hex.md` の手順に従う\n\n### 📚 参考リンク（QRコード）\n- MakeCode: `qrcodes/qr_makecode_new_project.png`\n- micro:bit公式: `qrcodes/qr_microbit_official.png`\n\n---\n\n作成日：2026-01-30\n"

/-- `q` lies strictly below directory `root`. -/
def underDir (root q : Path) : Bool := root.isPrefixOf q && decide (root.length < q.length)

/-- Path of `q` relative to `root`. -/
def relFrom (root q : Path) : Path := q.drop root.length

/-- The entries `shutil.make_archive(.., root_dir=base, base_dir=package_name)`
stores: the package root directory, every directory and every regular file
strictly below it, under paths relative to the base directory (entry order
is filesystem-dependent in the real tool; the model lists the root, then
directories, then files). -/
def zipEntries (fs : FS) : List ZEntry :=
  ⟨[package_name], true, ""⟩ ::
    ((fs.dirs.filter (underDir package_dir)).map
      (fun q => ⟨package_name :: relFrom package_dir q, true, ""⟩) ++
     fs.files.filterMap
      (fun qv => if underDir package_dir qv.1 then
        some ⟨package_name :: relFrom package_dir qv.1, false, qv.2.content⟩ else none))

/-- Record the archive at `p`, replacing any prior archive there. -/
def setArch (fs : FS) (p : Path) (es : List ZEntry) : FS :=
  { fs with archives := pset fs.archives p es }

/-- Modelled `os.path.getsize` of the fresh archive: total stored bytes
(abstracted as total content length). -/
def zipSize (es : List ZEntry) : Nat := (es.map (fun e => e.data.length)).sum

/-- The script's `f"{size/1024:.1f}"` rendering: one decimal digit,
rounding to nearest (the model ignores the half-to-even tie rule). -/
def fmtKB (bytes : Nat) : String :=
  let t := (bytes * 10 + 512) / 1024
  toString (t / 10) ++ "." ++ toString (t % 10)

/-- The manifest copy loop: per entry, copy when the source exists and log
a `Copied:` line, otherwise log a `Not found:` line. -/
def doCopies : List (Path × Path) → FS × List String → FS × List String
  | [], st => st
  | (s, d) :: rest, (fs, out) =>
    if fsExists fs s then
      doCopies rest (copy2 fs s d, out ++ ["Copied: " ++ basename s])
    else
      doCopies rest (fs, out ++ ["Not found: " ++ pathStr s])

/-- The QR copy loop over the names `os.listdir` returned. -/
def qrLoop : List String → FS × List String → FS × List String
  | [], st => st
  | n :: rest, (fs, out) =>
    if strEndsWith n ".png" then
      qrLoop rest (copy2 fs (qrSrc n) (qrDst n), out ++ ["Copied QR: " ++ n])
    else
      qrLoop rest (fs, out)

/-- The QR stage: scan the QR source directory when it exists; otherwise
do nothing (the script has no `else` branch there: nothing is logged). -/
def doQR (st : FS × List String) : FS × List String :=
  if fsExists st.1 qrcodes_dir then qrLoop (listdir st.1 qrcodes_dir) st else st

/-- The directory-creation stage: the package root, then the five
subdirectories, each with `exist_ok=True`. -/
def mkDirsStage (fs : FS) : FS :=
  subdirs.foldl (fun f d => makedirs f (package_dir ++ [d])) (makedirs fs package_dir)

/-- `create_package()`: the whole pipeline, returning the final filesystem
state and the console log. -/
def create_package (fs0 : FS) : FS × List String :=
  let fs2 := mkDirsStage fs0
  let st3 := doCopies copies (fs2, [])
  let st4 := doQR st3
  let fs5 := writeTxt st4.1 readme_path readme_content
  let out5 := st4.2 ++ ["Created README.md"]
  let es := zipEntries fs5
  let fs6 := setArch fs5 zip_path es
  (fs6, out5 ++ ["\n✅ Package created: " ++ pathStr zip_path,
                 "📦 Total size: " ++ fmtKB (zipSize es) ++ " KB"])

/- ### Basic lemmas about the association-list and directory primitives -/

theorem plook_nil {β : Type} (p : Path) : plook ([] : List (Path × β)) p = none := rfl

theorem plook_cons {β : Type} (q : Path) (v : β) (rest : List (Path × β)) (p : Path) :
    plook ((q, v) :: rest) p = if q = p then some v else plook rest p := rfl

theorem pset_nil {β : Type} (p : Path) (v : β) : pset ([] : List (Path × β)) p v = [(p, v)] := rfl

theorem pset_cons {β : Type} (q : Path) (w : β) (rest : List (Path × β)) (p : Path) (v : β) :
    pset ((q, w) :: rest) p v =
      if q = p then (p, v) :: rest else (q, w) :: pset rest p v := rfl

theorem plook_eq_none_iff {β : Type} (l : List (Path × β)) (p : Path) :
    plook l p = none ↔ p ∉ l.map Prod.fst := by
  induction l with
  | nil => simp [plook_nil]
  | cons qv rest ih =>
    obtain ⟨q, v⟩ := qv
    rw [plook_cons]
    by_cases h : q = p
    · subst h
      rw [if_pos rfl]
      constructor
      · intro hc
        exact (Option.some_ne_none v hc).elim
      · intro hc
        exact (hc (List.mem_map_of_mem Prod.fst (List.mem_cons_self _ _))).elim
    · simp only [if_neg h, ih, List.map_cons, List.mem_cons]
      constructor
      · rintro hn (rfl | hm)
        · exact h rfl
        · exact hn hm
      · intro hn hm
        exact hn (Or.inr hm)

theorem plook_pset_self {β : Type} (l : List (Path × β)) (p : Path) (v : β) :
    plook (pset l p v) p = some v := by
  induction l with
  | nil => simp [pset_nil, plook_cons]
  | cons qv rest ih =>
    obtain ⟨q, w⟩ := qv
    rw [pset_cons]
    by_cases h : q = p
    · rw [if_pos h, plook_cons, if_pos rfl]
    · rw [if_neg h, plook_cons, if_neg h, ih]

theorem plook_pset_ne {β : Type} (l : List (Path × β)) (p q : Path) (v : β)
    (h : q ≠ p) : plook (pset l p v) q = plook l q := by
  induction l with
  | nil =>
    rw [pset_nil, plook_cons, plook_nil, if_neg (fun hh => h hh.symm)]
  | cons aw rest ih =>
    obtain ⟨a, w⟩ := aw
    rw [pset_cons]
    by_cases ha : a = p
    · subst ha
      rw [if_pos rfl, plook_cons, plook_cons,
        if_neg (fun hh => h hh.symm), if_neg (fun hh => h hh.symm)]
    · rw [if_neg ha, plook_cons, plook_cons, ih]

theorem pset_same {β : Type} (l : List (Path × β)) (p : Path) (v : β)
    (h : plook l p = some v) : pset l p v = l := by
  induction l with
  | nil => rw [plook_nil] at h; exact absurd h (by simp)
  | cons qv rest ih =>
    obtain ⟨q, w⟩ := qv
    rw [plook_cons] at h
    rw [pset_cons]
    by_cases hq : q = p
    · rw [if_pos hq] at h
      obtain rfl : w = v := by injection h
      rw [if_pos hq, hq]
    · rw [if_neg hq] at h
      rw [if_neg hq, ih h]

theorem keys_pset {β : Type} (l : List (Path × β)) (p : Path) (v : β) :
    (pset l p v).map Prod.fst = l.map Prod.fst ∨
    (pset l p v).map Prod.fst = l.map Prod.fst ++ [p] := by
  induction l with
  | nil => right; simp [pset_nil]
  | cons qv rest ih =>
    obtain ⟨q, w⟩ := qv
    rw [pset_cons]
    by_cases hq : q = p
    · left; rw [if_pos hq, hq]; simp
    · rw [if_neg hq]
      rcases ih with h | h
      · left; simp [h]
      · right; simp [h]

theorem nodup_keys_pset {β : Type} (l : List (Path × β)) (p : Path) (v : β)
    (hn : (l.map Prod.fst).Nodup) : ((pset l p v).map Prod.fst).Nodup := by
  induction l with
  | nil => simp [pset_nil]
  | cons qv rest ih =>
    obtain ⟨q, w⟩ := qv
    simp only [List.map_cons, List.nodup_cons] at hn
    rw [pset_cons]
    by_cases hq : q = p
    · subst hq
      rw [if_pos rfl]
      simp only [List.map_cons, List.nodup_cons]
      exact hn
    · rw [if_neg hq]
      simp only [List.map_cons, List.nodup_cons]
      refine ⟨?_, ih hn.2⟩
      intro hmem
      rcases keys_pset rest p v with h | h
      · exact hn.1 (h ▸ hmem)
      · rw [h, List.mem_append] at hmem
        rcases hmem with hm | hm
        · exact hn.1 hm
        · simp at hm
          exact hq hm

theorem dmem_iff (l : List Path) (p : Path) : dmem l p = true ↔ p ∈ l := by
  induction l with
  | nil => simp [dmem]
  | cons q rest ih =>
    by_cases h : q = p
    · subst h; simp [dmem]
    · simp only [dmem, if_neg h, ih, List.mem_cons]
      constructor
      · exact Or.inr
      · rintro (rfl | hm)
        · exact absurd rfl h
        · exact hm

theorem lcount_append (l₁ l₂ : List String) (t : String) :
    lcount (l₁ ++ l₂) t = lcount l₁ t + lcount l₂ t := by
  induction l₁ with
  | nil => simp [lcount]
  | cons s rest ih => simp [lcount, ih]; omega

/- ### Directory-creation lemmas -/

theorem mem_addDir (ds : List Path) (a q : Path) :
    q ∈ addDir ds a ↔ q ∈ ds ∨ q = a := by
  unfold addDir
  split
  · rename_i h
    rw [dmem_iff] at h
    constructor
    · exact Or.inl
    · rintro (hq | rfl) <;> [exact hq; exact h]
  · simp

theorem mem_foldl_addDir (l : List Path) (ds : List Path) (q : Path) :
    q ∈ l.foldl addDir ds ↔ q ∈ ds ∨ q ∈ l := by
  induction l generalizing ds with
  | nil => simp
  | cons a rest ih =>
    simp only [List.foldl_cons, ih, mem_addDir, List.mem_cons]
    tauto

theorem foldl_addDir_of_mem (l : List Path) (ds : List Path)
    (h : ∀ a ∈ l, a ∈ ds) : l.foldl addDir ds = ds := by
  induction l with
  | nil => rfl
  | cons a rest ih =>
    have ha : addDir ds a = ds := by
      unfold addDir
      rw [if_pos ((dmem_iff ds a).mpr (h a (by simp)))]
    simp only [List.foldl_cons, ha]
    exact ih fun b hb => h b (by simp [hb])

theorem mem_makedirs (fs : FS) (p q : Path) :
    q ∈ (makedirs fs p).dirs ↔ q ∈ fs.dirs ∨ q ∈ ancestors p := by
  unfold makedirs
  exact mem_foldl_addDir _ _ q

theorem makedirs_of_mem (fs : FS) (p : Path)
    (h : ∀ a ∈ ancestors p, a ∈ fs.dirs) : makedirs fs p = fs := by
  unfold makedirs
  cases fs
  simp [foldl_addDir_of_mem _ _ h]

theorem makedirs_idem (fs : FS) (p : Path) :
    makedirs (makedirs fs p) p = makedirs fs p :=
  makedirs_of_mem _ p fun a ha => (mem_makedirs fs p a).mpr (Or.inr ha)

/-- All directories the creation stage can add, concretely. -/
def stageDirs : List Path :=
  ancestors package_dir ++
  ancestors (package_dir ++ ["guides"]) ++
  ancestors (package_dir ++ ["worksheets"]) ++
  ancestors (package_dir ++ ["templates"]) ++
  ancestors (package_dir ++ ["qrcodes"]) ++
  ancestors (package_dir ++ ["resources"])

theorem mem_mkDirsStage (fs : FS) (q : Path) :
    q ∈ (mkDirsStage fs).dirs ↔ q ∈ fs.dirs ∨ q ∈ stageDirs := by
  simp only [mkDirsStage, subdirs, List.foldl_cons, List.foldl_nil,
    mem_makedirs, stageDirs, List.mem_append]
  tauto

theorem ancestors_self (p : Path) (h : p ≠ []) : p ∈ ancestors p := by
  unfold ancestors
  have hl : 0 < p.length := List.length_pos.mpr h
  refine List.mem_map.mpr ⟨p.length - 1, ?_, ?_⟩
  · exact List.mem_range.mpr (by omega)
  · rw [Nat.sub_add_cancel hl, List.take_length]

theorem makedirs_files (fs : FS) (p : Path) : (makedirs fs p).files = fs.files := rfl

theorem makedirs_archives (fs : FS) (p : Path) : (makedirs fs p).archives = fs.archives := rfl

theorem mkDirsStage_files (fs : FS) : (mkDirsStage fs).files = fs.files := by
  simp only [mkDirsStage, subdirs, List.foldl_cons, List.foldl_nil, makedirs_files]

theorem mkDirsStage_archives (fs : FS) : (mkDirsStage fs).archives = fs.archives := by
  simp only [mkDirsStage, subdirs, List.foldl_cons, List.foldl_nil, makedirs_archives]

/- ### Structural lemmas for the copy, QR, README and archive stages -/

theorem copy2_dirs (fs : FS) (s d : Path) : (copy2 fs s d).dirs = fs.dirs := by
  unfold copy2; cases plook fs.files s <;> rfl

theorem copy2_archives (fs : FS) (s d : Path) : (copy2 fs s d).archives = fs.archives := by
  unfold copy2; cases plook fs.files s <;> rfl

theorem copy2_plook_ne (fs : FS) (s d p : Path) (h : p ≠ d) :
    plook (copy2 fs s d).files p = plook fs.files p := by
  unfold copy2
  cases plook fs.files s with
  | none => rfl
  | some fd => exact plook_pset_ne fs.files d p fd h

theorem copy2_plook_self (fs : FS) (s d : Path) (fd : FileRec)
    (h : plook fs.files s = some fd) :
    plook (copy2 fs s d).files d = some fd := by
  unfold copy2; rw [h]; exact plook_pset_self fs.files d fd

theorem writeTxt_dirs (fs : FS) (p : Path) (s : String) : (writeTxt fs p s).dirs = fs.dirs := rfl

theorem writeTxt_archives (fs : FS) (p : Path) (s : String) :
    (writeTxt fs p s).archives = fs.archives := rfl

theorem writeTxt_plook_self (fs : FS) (p : Path) (s : String) :
    plook (writeTxt fs p s).files p = some ⟨s, 0⟩ :=
  plook_pset_self fs.files p ⟨s, 0⟩

theorem writeTxt_plook_ne (fs : FS) (p q : Path) (s : String) (h : q ≠ p) :
    plook (writeTxt fs p s).files q = plook fs.files q :=
  plook_pset_ne fs.files p q ⟨s, 0⟩ h

theorem setArch_files (fs : FS) (p : Path) (es : List ZEntry) :
    (setArch fs p es).files = fs.files := rfl

theorem setArch_dirs (fs : FS) (p : Path) (es : List ZEntry) :
    (setArch fs p es).dirs = fs.dirs := rfl

theorem setArch_plook_self (fs : FS) (p : Path) (es : List ZEntry) :
    plook (setArch fs p es).archives p = some es :=
  plook_pset_self fs.archives p es

/-- The copy loop only ever appends to the log, and the final filesystem
does not depend on the log already accumulated. -/
theorem doCopies_norm (l : List (Path × Path)) (fs : FS) (out : List String) :
    doCopies l (fs, out) = ((doCopies l (fs, [])).1, out ++ (doCopies l (fs, [])).2) := by
  induction l generalizing fs out with
  | nil => simp [doCopies]
  | cons e rest ih =>
    obtain ⟨s, d⟩ := e
    by_cases h : fsExists fs s
    · simp only [doCopies, if_pos h]
      rw [ih (copy2 fs s d) (out ++ _), ih (copy2 fs s d) ([] ++ _)]
      simp
    · simp only [doCopies, if_neg h]
      rw [ih fs (out ++ _), ih fs ([] ++ _)]
      simp

theorem doCopies_dirs (l : List (Path × Path)) (fs : FS) (out : List String) :
    (doCopies l (fs, out)).1.dirs = fs.dirs := by
  induction l generalizing fs out with
  | nil => rfl
  | cons e rest ih =>
    obtain ⟨s, d⟩ := e
    by_cases h : fsExists fs s
    · simp only [doCopies, if_pos h, ih, copy2_dirs]
    · simp only [doCopies, if_neg h, ih]

theorem doCopies_archives (l : List (Path × Path)) (fs : FS) (out : List String) :
    (doCopies l (fs, out)).1.archives = fs.archives := by
  induction l generalizing fs out with
  | nil => rfl
  | cons e rest ih =>
    obtain ⟨s, d⟩ := e
    by_cases h : fsExists fs s
    · simp only [doCopies, if_pos h, ih, copy2_archives]
    · simp only [doCopies, if_neg h, ih]

theorem doCopies_plook_ne (l : List (Path × Path)) (fs : FS) (out : List String)
    (p : Path) (h : ∀ e ∈ l, e.2 ≠ p) :
    plook (doCopies l (fs, out)).1.files p = plook fs.files p := by
  induction l generalizing fs out with
  | nil => rfl
  | cons e rest ih =>
    obtain ⟨s, d⟩ := e
    have hd : d ≠ p := h (s, d) (by simp)
    have hrest : ∀ e ∈ rest, e.2 ≠ p := fun e he => h e (by simp [he])
    by_cases hc : fsExists fs s
    · simp only [doCopies, if_pos hc, ih _ _ hrest,
        copy2_plook_ne fs s d p (fun hh => hd hh.symm)]
    · simp only [doCopies, if_neg hc, ih _ _ hrest]

theorem fsExists_parts (fs fs' : FS) (p : Path)
    (hf : plook fs'.files p = plook fs.files p) (hd : fs'.dirs = fs.dirs)
    (ha : fs'.archives = fs.archives) : fsExists fs' p = fsExists fs p := by
  unfold fsExists
  rw [hf, hd, ha]

theorem qrLoop_norm (names : List String) (fs : FS) (out : List String) :
    qrLoop names (fs, out) = ((qrLoop names (fs, [])).1, out ++ (qrLoop names (fs, [])).2) := by
  induction names generalizing fs out with
  | nil => simp [qrLoop]
  | cons n rest ih =>
    by_cases h : strEndsWith n ".png"
    · simp only [qrLoop, if_pos h]
      rw [ih (copy2 fs (qrSrc n) (qrDst n)) (out ++ _),
        ih (copy2 fs (qrSrc n) (qrDst n)) ([] ++ _)]
      simp
    · simp only [qrLoop, if_neg h]
      exact ih fs out

theorem qrLoop_dirs (names : List String) (fs : FS) (out : List String) :
    (qrLoop names (fs, out)).1.dirs = fs.dirs := by
  induction names generalizing fs out with
  | nil => rfl
  | cons n rest ih =>
    by_cases h : strEndsWith n ".png"
    · simp only [qrLoop, if_pos h, ih, copy2_dirs]
    · simp only [qrLoop, if_neg h, ih]

theorem qrLoop_archives (names : List String) (fs : FS) (out : List String) :
    (qrLoop names (fs, out)).1.archives = fs.archives := by
  induction names generalizing fs out with
  | nil => rfl
  | cons n rest ih =>
    by_cases h : strEndsWith n ".png"
    · simp only [qrLoop, if_pos h, ih, copy2_archives]
    · simp only [qrLoop, if_neg h, ih]

theorem qrLoop_plook_ne (names : List String) (fs : FS) (out : List String)
    (p : Path) (h : ∀ n, qrDst n ≠ p) :
    plook (qrLoop names (fs, out)).1.files p = plook fs.files p := by
  induction names generalizing fs out with
  | nil => rfl
  | cons n rest ih =>
    by_cases hc : strEndsWith n ".png"
    · simp only [qrLoop, if_pos hc, ih,
        copy2_plook_ne fs (qrSrc n) (qrDst n) p (fun hh => h n hh.symm)]
    · simp only [qrLoop, if_neg hc, ih]

theorem doQR_dirs (st : FS × List String) : (doQR st).1.dirs = st.1.dirs := by
  obtain ⟨fs, out⟩ := st
  unfold doQR
  split
  · exact qrLoop_dirs _ fs out
  · rfl

theorem doQR_archives (st : FS × List String) : (doQR st).1.archives = st.1.archives := by
  obtain ⟨fs, out⟩ := st
  unfold doQR
  split
  · exact qrLoop_archives _ fs out
  · rfl

theorem doQR_plook_ne (st : FS × List String) (p : Path) (h : ∀ n, qrDst n ≠ p) :
    plook (doQR st).1.files p = plook st.1.files p := by
  obtain ⟨fs, out⟩ := st
  unfold doQR
  split
  · exact qrLoop_plook_ne _ fs out p h
  · rfl

/- ### The pipeline's final state, path by path -/

theorem create_package_dirs (fs0 : FS) :
    ((create_package fs0).1).dirs = (mkDirsStage fs0).dirs := by
  unfold create_package
  rw [setArch_dirs, writeTxt_dirs, doQR_dirs]
  have := doCopies_dirs copies (mkDirsStage fs0) []
  rw [show doCopies copies (mkDirsStage fs0, []) =
    ((doCopies copies (mkDirsStage fs0, [])).1, (doCopies copies (mkDirsStage fs0, [])).2) from rfl] at this ⊢
  exact this

/-- The README, as a record with fresh metadata, is what the pipeline
leaves at `readme_path` — on every input state. -/
theorem readme_plook (fs0 : FS) :
    plook ((create_package fs0).1).files readme_path = some ⟨readme_content, 0⟩ := by
  unfold create_package
  rw [setArch_files]
  exact writeTxt_plook_self _ readme_path readme_content

theorem doCopies_append (l₁ l₂ : List (Path × Path)) (st : FS × List String) :
    doCopies (l₁ ++ l₂) st = doCopies l₂ (doCopies l₁ st) := by
  induction l₁ generalizing st with
  | nil => rfl
  | cons e rest ih =>
    obtain ⟨s, d⟩ := e
    obtain ⟨fs, out⟩ := st
    by_cases h : fsExists fs s
    · simp only [List.cons_append, doCopies, if_pos h, List.append_eq, ih]
    · simp only [List.cons_append, doCopies, if_neg h, List.append_eq, ih]

theorem doCopies_fsExists_ne (l : List (Path × Path)) (fs : FS) (out : List String)
    (p : Path) (h : ∀ e ∈ l, e.2 ≠ p) :
    fsExists (doCopies l (fs, out)).1 p = fsExists fs p :=
  fsExists_parts fs _ p (doCopies_plook_ne l fs out p h)
    (doCopies_dirs l fs out) (doCopies_archives l fs out)

/-- A QR destination never coincides with a path whose sixth component is
not `qrcodes`. -/
theorem qrDst_ne_sub (n c x : String) (hc : c ≠ "qrcodes") :
    qrDst n ≠ package_dir ++ [c, x] := by
  intro h
  have h5 := congrArg (fun l => l.get? 5) h
  simp only [qrDst, package_dir, base_dir] at h5
  simp at h5
  exact hc h5.symm

/-- Where one fixed manifest destination ends up: the copied record, on any
input state in which the source is a regular file. The hypotheses record
that no earlier manifest entry writes the source, and that no later stage
writes the destination. -/
theorem run_plook_dst (fs0 : FS) (l₁ l₂ : List (Path × Path)) (s d : Path) (fd : FileRec)
    (hsplit : copies = l₁ ++ (s, d) :: l₂)
    (h₁ : ∀ e ∈ l₁, e.2 ≠ s)
    (h₂ : ∀ e ∈ l₂, e.2 ≠ d)
    (hqr : ∀ n, qrDst n ≠ d)
    (hrm : d ≠ readme_path)
    (hs : plook fs0.files s = some fd) :
    plook ((create_package fs0).1).files d = some fd := by
  unfold create_package
  rw [setArch_files, writeTxt_plook_ne _ readme_path d readme_content hrm,
    doQR_plook_ne _ d hqr, hsplit, doCopies_append]
  have hex_src : plook (doCopies l₁ (mkDirsStage fs0, [])).1.files s = some fd := by
    rw [doCopies_plook_ne l₁ (mkDirsStage fs0) [] s h₁, mkDirsStage_files]
    exact hs
  have hcond : fsExists (doCopies l₁ (mkDirsStage fs0, [])).1 s = true := by
    unfold fsExists
    rw [hex_src]
    simp
  rw [show doCopies l₁ (mkDirsStage fs0, []) =
    ((doCopies l₁ (mkDirsStage fs0, [])).1, (doCopies l₁ (mkDirsStage fs0, [])).2) from rfl]
  simp only [doCopies, hcond, if_true]
  rw [doCopies_plook_ne l₂ _ _ d h₂]
  exact copy2_plook_self _ s d fd hex_src

/-- Two appended strings differ when their left parts start with distinct
characters. -/
theorem append_ne_of_head1 (a b x y : String) (hna : a.data ≠ []) (hnb : b.data ≠ [])
    (hc : a.data.head? ≠ b.data.head?) : a ++ x ≠ b ++ y := by
  intro h
  have hd : (a ++ x).data = (b ++ y).data := congrArg String.data h
  rw [String.data_append, String.data_append] at hd
  have hh := congrArg List.head? hd
  rw [List.head?_append_of_ne_nil _ hna, List.head?_append_of_ne_nil _ hnb] at hh
  exact hc hh

theorem lcount_single (s t : String) : lcount [s] t = if s = t then 1 else 0 := by
  simp [lcount]

theorem dmem_congr (l l' : List Path) (p : Path) (h : p ∈ l ↔ p ∈ l') :
    dmem l p = dmem l' p := by
  by_cases hm : p ∈ l'
  · rw [(dmem_iff l p).mpr (h.mpr hm), (dmem_iff l' p).mpr hm]
  · have h1 : dmem l p ≠ true := fun hc => hm (h.mp ((dmem_iff l p).mp hc))
    have h2 : dmem l' p ≠ true := fun hc => hm ((dmem_iff l' p).mp hc)
    rw [Bool.eq_false_iff.mpr h1, Bool.eq_false_iff.mpr h2]

theorem fsExists_mkDirsStage (fs0 : FS) (p : Path) (h : p ∉ stageDirs) :
    fsExists (mkDirsStage fs0) p = fsExists fs0 p := by
  unfold fsExists
  rw [mkDirsStage_files, mkDirsStage_archives,
    dmem_congr (mkDirsStage fs0).dirs fs0.dirs p
      (by rw [mem_mkDirsStage]; exact ⟨fun hh => hh.resolve_right h, Or.inl⟩)]

theorem qrLoop_lcount (names : List String) (fs : FS) (out : List String) (t : String)
    (h : ∀ n, "Copied QR: " ++ n ≠ t) :
    lcount (qrLoop names (fs, out)).2 t = lcount out t := by
  induction names generalizing fs out with
  | nil => rfl
  | cons n rest ih =>
    by_cases hc : strEndsWith n ".png"
    · simp only [qrLoop, if_pos hc, ih]
      rw [lcount_append, lcount_single, if_neg (h n), Nat.add_zero]
    · simp only [qrLoop, if_neg hc, ih]

theorem doQR_lcount (st : FS × List String) (t : String)
    (h : ∀ n, "Copied QR: " ++ n ≠ t) :
    lcount (doQR st).2 t = lcount st.2 t := by
  obtain ⟨fs, out⟩ := st
  unfold doQR
  split
  · exact qrLoop_lcount _ fs out t h
  · rfl

theorem doCopies_lcount_zero (l : List (Path × Path)) (fs : FS) (out : List String)
    (t : String)
    (h : ∀ e ∈ l, ("Copied: " ++ basename e.1 ≠ t) ∧ ("Not found: " ++ pathStr e.1 ≠ t)) :
    lcount (doCopies l (fs, out)).2 t = lcount out t := by
  induction l generalizing fs out with
  | nil => rfl
  | cons e rest ih =>
    obtain ⟨s, d⟩ := e
    have he := h (s, d) (by simp)
    have hrest : ∀ e ∈ rest, ("Copied: " ++ basename e.1 ≠ t) ∧
        ("Not found: " ++ pathStr e.1 ≠ t) := fun e hee => h e (by simp [hee])
    by_cases hc : fsExists fs s
    · simp only [doCopies, if_pos hc, ih _ _ hrest]
      rw [lcount_append, lcount_single, if_neg he.1, Nat.add_zero]
    · simp only [doCopies, if_neg hc, ih _ _ hrest]
      rw [lcount_append, lcount_single, if_neg he.2, Nat.add_zero]

theorem str_append_right_inj (a x y : String) (h : x ≠ y) : a ++ x ≠ a ++ y := by
  intro hc
  apply h
  have hd := congrArg String.data hc
  rw [String.data_append, String.data_append] at hd
  exact String.ext (List.append_cancel_left hd)

theorem copied_ne_notfound (a b : String) : "Copied: " ++ a ≠ "Not found: " ++ b :=
  append_ne_of_head1 "Copied: " "Not found: " a b (by decide) (by decide) (by decide)

theorem copiedqr_ne_notfound (a b : String) : "Copied QR: " ++ a ≠ "Not found: " ++ b :=
  append_ne_of_head1 "Copied QR: " "Not found: " a b (by decide) (by decide) (by decide)

theorem created_ne_notfound (b : String) : "Created README.md" ≠ "Not found: " ++ b := by
  have h := append_ne_of_head1 "Created README.md" "Not found: " "" b
    (by decide) (by decide) (by decide)
  intro hc
  apply h
  rw [show ("Created README.md" ++ "" : String) = "Created README.md" from by simp]
  exact hc

theorem banner_ne_notfound (a b : String) :
    "\n✅ Package created: " ++ a ≠ "Not found: " ++ b :=
  append_ne_of_head1 "\n✅ Package created: " "Not found: " a b
    (by decide) (by decide) (by decide)

theorem size_ne_notfound (x y z : String) :
    "📦 Total size: " ++ x ++ y ≠ "Not found: " ++ z := by
  rw [String.append_assoc]
  exact append_ne_of_head1 "📦 Total size: " "Not found: " (x ++ y) z
    (by decide) (by decide) (by decide)

theorem final_lines_lcount (x y b : String) :
    lcount ["\n✅ Package created: " ++ x, "📦 Total size: " ++ y ++ " KB"]
      ("Not found: " ++ b) = 0 := by
  simp only [lcount, if_neg (banner_ne_notfound x b), if_neg (size_ne_notfound y " KB" b)]

/-- A skipped manifest entry: when its source does not exist on the input
state the run leaves the destination untouched and logs exactly one
`Not found` line for it. The hypotheses record the position of the entry in
the manifest and the disjointness of every other write from this entry's
paths and log line. -/
theorem run_skip (fs0 : FS) (l₁ l₂ : List (Path × Path)) (s d : Path)
    (hsplit : copies = l₁ ++ (s, d) :: l₂)
    (h₁s : ∀ e ∈ l₁, e.2 ≠ s)
    (h₁d : ∀ e ∈ l₁, e.2 ≠ d)
    (h₂d : ∀ e ∈ l₂, e.2 ≠ d)
    (hqr : ∀ n, qrDst n ≠ d)
    (hrm : d ≠ readme_path)
    (hsd : s ∉ stageDirs)
    (hn₁ : ∀ e ∈ l₁, pathStr e.1 ≠ pathStr s)
    (hn₂ : ∀ e ∈ l₂, pathStr e.1 ≠ pathStr s)
    (hs : fsExists fs0 s = false) :
    plook ((create_package fs0).1).files d = plook fs0.files d ∧
    lcount ((create_package fs0).2) ("Not found: " ++ pathStr s) = 1 := by
  have hex : fsExists (doCopies l₁ (mkDirsStage fs0, [])).1 s = false := by
    rw [doCopies_fsExists_ne l₁ _ _ s h₁s, fsExists_mkDirsStage fs0 s hsd]
    exact hs
  have hex' : ¬ fsExists (doCopies l₁ (mkDirsStage fs0, [])).1 s = true := by
    rw [hex]; simp
  have hc₁ : ∀ e ∈ l₁, ("Copied: " ++ basename e.1 ≠ "Not found: " ++ pathStr s) ∧
      ("Not found: " ++ pathStr e.1 ≠ "Not found: " ++ pathStr s) :=
    fun e he => ⟨copied_ne_notfound _ _, str_append_right_inj _ _ _ (hn₁ e he)⟩
  have hc₂ : ∀ e ∈ l₂, ("Copied: " ++ basename e.1 ≠ "Not found: " ++ pathStr s) ∧
      ("Not found: " ++ pathStr e.1 ≠ "Not found: " ++ pathStr s) :=
    fun e he => ⟨copied_ne_notfound _ _, str_append_right_inj _ _ _ (hn₂ e he)⟩
  constructor
  · unfold create_package
    rw [setArch_files, writeTxt_plook_ne _ readme_path d readme_content hrm,
      doQR_plook_ne _ d hqr, hsplit, doCopies_append]
    rw [show doCopies l₁ (mkDirsStage fs0, []) =
      ((doCopies l₁ (mkDirsStage fs0, [])).1, (doCopies l₁ (mkDirsStage fs0, [])).2) from rfl]
    simp only [doCopies, if_neg hex']
    rw [doCopies_plook_ne l₂ _ _ d h₂d, doCopies_plook_ne l₁ _ _ d h₁d, mkDirsStage_files]
  · unfold create_package
    rw [lcount_append, lcount_append,
      doQR_lcount _ _ (fun n => copiedqr_ne_notfound n (pathStr s)), hsplit, doCopies_append]
    rw [show doCopies l₁ (mkDirsStage fs0, []) =
      ((doCopies l₁ (mkDirsStage fs0, [])).1, (doCopies l₁ (mkDirsStage fs0, [])).2) from rfl]
    simp only [doCopies, if_neg hex']
    rw [doCopies_lcount_zero l₂ _ _ _ hc₂, lcount_append,
      doCopies_lcount_zero l₁ _ _ _ hc₁, lcount_single,
      if_pos rfl, lcount_single, if_neg (created_ne_notfound (pathStr s)),
      final_lines_lcount]
    simp [lcount]

/- ### Lemmas about the QR scan -/

theorem qrDst_len (n : String) : (qrDst n).length = 7 := by
  simp [qrDst, package_dir, base_dir]

theorem qrSrc_len (n : String) : (qrSrc n).length = 6 := by
  simp [qrSrc, qrcodes_dir, base_dir]

theorem qrDst_inj (m n : String) (h : qrDst m = qrDst n) : m = n := by
  have h6 := congrArg (fun l => l.get? 6) h
  simp only [qrDst, package_dir, base_dir] at h6
  simpa using h6

theorem copies_dst_ne_qrSrc (n : String) : ∀ e ∈ copies, e.2 ≠ qrSrc n := by
  intro e he hc
  have h1 : e.2.length = 7 := by
    have : ∀ e ∈ copies, e.2.length = 7 := by decide
    exact this e he
  rw [hc, qrSrc_len n] at h1
  exact absurd h1 (by decide)

theorem qrDst_ne_readme (n : String) : qrDst n ≠ readme_path := by
  intro hc
  have h1 := congrArg List.length hc
  rw [qrDst_len n] at h1
  exact absurd h1 (by decide)

theorem qrDst_ne_qrSrc (m n : String) : qrDst m ≠ qrSrc n := by
  intro hc
  have h1 := congrArg List.length hc
  rw [qrDst_len m, qrSrc_len n] at h1
  exact absurd h1 (by decide)

theorem qrLoop_plook_ne_mem (names : List String) (fs : FS) (out : List String)
    (p : Path) (h : ∀ n ∈ names, qrDst n ≠ p) :
    plook (qrLoop names (fs, out)).1.files p = plook fs.files p := by
  induction names generalizing fs out with
  | nil => rfl
  | cons n rest ih =>
    have hrest : ∀ m ∈ rest, qrDst m ≠ p := fun m hm => h m (by simp [hm])
    by_cases hc : strEndsWith n ".png"
    · simp only [qrLoop, if_pos hc, ih _ _ hrest,
        copy2_plook_ne fs (qrSrc n) (qrDst n) p (fun hh => h n (by simp) hh.symm)]
    · simp only [qrLoop, if_neg hc, ih _ _ hrest]

/-- Effect of the QR loop on one of its `.png` entries: the destination
receives the source's record and the copy is logged. -/
theorem qrLoop_copies (names : List String) (fs : FS) (out : List String)
    (n : String) (fd : FileRec) (hnd : names.Nodup) (hn : n ∈ names)
    (hpng : strEndsWith n ".png" = true)
    (hfd : plook fs.files (qrSrc n) = some fd) :
    plook (qrLoop names (fs, out)).1.files (qrDst n) = some fd ∧
    ("Copied QR: " ++ n) ∈ (qrLoop names (fs, out)).2 := by
  induction names generalizing fs out with
  | nil => cases hn
  | cons m rest ih =>
    rcases List.mem_cons.mp hn with rfl | hmem
    · have hnotin : ∀ k ∈ rest, qrDst k ≠ qrDst n := by
        intro k hk hc
        have : k = n := qrDst_inj k n hc
        subst this
        exact (List.nodup_cons.mp hnd).1 hk
      constructor
      · simp only [qrLoop, if_pos hpng, qrLoop_plook_ne_mem rest _ _ _ hnotin]
        exact copy2_plook_self fs (qrSrc n) (qrDst n) fd hfd
      · simp only [qrLoop, if_pos hpng]
        rw [qrLoop_norm]
        simp
    · have hnd' : rest.Nodup := (List.nodup_cons.mp hnd).2
      by_cases hc : strEndsWith m ".png"
      · have hfd' : plook (copy2 fs (qrSrc m) (qrDst m)).files (qrSrc n) = some fd := by
          rw [copy2_plook_ne fs (qrSrc m) (qrDst m) (qrSrc n)
            (fun hh => qrDst_ne_qrSrc m n hh.symm)]
          exact hfd
        simp only [qrLoop, if_pos hc]
        exact ih _ _ hnd' hmem hfd'
      · simp only [qrLoop, if_neg hc]
        exact ih _ _ hnd' hmem hfd

/- ### The run preserves the QR source directory and its listing -/

theorem makedirs_dirs_ex (fs : FS) (p : Path) :
    ∃ ex, (makedirs fs p).dirs = fs.dirs ++ ex ∧ ∀ q ∈ ex, q ∈ ancestors p := by
  unfold makedirs
  suffices h : ∀ (l : List Path) (ds : List Path),
      ∃ ex, l.foldl addDir ds = ds ++ ex ∧ ∀ q ∈ ex, q ∈ l by
    obtain ⟨ex, he, hm⟩ := h (ancestors p) fs.dirs
    exact ⟨ex, he, hm⟩
  intro l
  induction l with
  | nil => exact fun ds => ⟨[], by simp, by simp⟩
  | cons a rest ih =>
    intro ds
    by_cases hm : dmem ds a
    · obtain ⟨ex, he, hmm⟩ := ih ds
      refine ⟨ex, ?_, fun q hq => by simp [hmm q hq]⟩
      simp only [List.foldl_cons, addDir, if_pos hm]
      exact he
    · obtain ⟨ex, he, hmm⟩ := ih (ds ++ [a])
      refine ⟨[a] ++ ex, ?_, ?_⟩
      · simp only [List.foldl_cons, addDir, if_neg hm]
        rw [he, List.append_assoc]
      · intro q hq
        rcases List.mem_append.mp hq with hq | hq
        · simp at hq
          simp [hq]
        · simp [hmm q hq]

theorem mkDirsStage_dirs_ex (fs : FS) :
    ∃ ex, (mkDirsStage fs).dirs = fs.dirs ++ ex ∧ ∀ q ∈ ex, q ∈ stageDirs := by
  unfold mkDirsStage
  simp only [subdirs, List.foldl_cons, List.foldl_nil]
  obtain ⟨e1, h1, m1⟩ := makedirs_dirs_ex fs package_dir
  obtain ⟨e2, h2, m2⟩ := makedirs_dirs_ex (makedirs fs package_dir) (package_dir ++ ["guides"])
  obtain ⟨e3, h3, m3⟩ := makedirs_dirs_ex _ (package_dir ++ ["worksheets"])
  obtain ⟨e4, h4, m4⟩ := makedirs_dirs_ex _ (package_dir ++ ["templates"])
  obtain ⟨e5, h5, m5⟩ := makedirs_dirs_ex _ (package_dir ++ ["qrcodes"])
  obtain ⟨e6, h6, m6⟩ := makedirs_dirs_ex _ (package_dir ++ ["resources"])
  refine ⟨e1 ++ e2 ++ e3 ++ e4 ++ e5 ++ e6, ?_, ?_⟩
  · rw [h6, h5, h4, h3, h2, h1]
    simp [List.append_assoc]
  · intro q hq
    simp only [List.mem_append] at hq
    simp only [stageDirs, List.mem_append]
    rcases hq with ((((hq | hq) | hq) | hq) | hq) | hq
    · exact Or.inl (Or.inl (Or.inl (Or.inl (Or.inl (m1 q hq)))))
    · exact Or.inl (Or.inl (Or.inl (Or.inl (Or.inr (m2 q hq)))))
    · exact Or.inl (Or.inl (Or.inl (Or.inr (m3 q hq))))
    · exact Or.inl (Or.inl (Or.inr (m4 q hq)))
    · exact Or.inl (Or.inr (m5 q hq))
    · exact Or.inr (m6 q hq)

theorem copy2_keys_ex (fs : FS) (s d : Path) :
    ∃ ex, (copy2 fs s d).files.map Prod.fst = fs.files.map Prod.fst ++ ex ∧
      ∀ p ∈ ex, p = d := by
  unfold copy2
  cases plook fs.files s with
  | none => exact ⟨[], by simp, by simp⟩
  | some fd =>
    rcases keys_pset fs.files d fd with h | h
    · exact ⟨[], by simp [h], by simp⟩
    · exact ⟨[d], by simp [h], by simp⟩

theorem doCopies_keys_ex (l : List (Path × Path)) (fs : FS) (out : List String) :
    ∃ ex, ((doCopies l (fs, out)).1.files).map Prod.fst = fs.files.map Prod.fst ++ ex ∧
      ∀ p ∈ ex, ∃ e ∈ l, e.2 = p := by
  induction l generalizing fs out with
  | nil => exact ⟨[], by simp [doCopies], by simp⟩
  | cons e rest ih =>
    obtain ⟨s, d⟩ := e
    by_cases hc : fsExists fs s
    · obtain ⟨ex1, he1, hm1⟩ := copy2_keys_ex fs s d
      obtain ⟨ex2, he2, hm2⟩ := ih (copy2 fs s d) (out ++ ["Copied: " ++ basename s])
      refine ⟨ex1 ++ ex2, ?_, ?_⟩
      · simp only [doCopies, if_pos hc]
        rw [he2, he1, List.append_assoc]
      · intro p hp
        rcases List.mem_append.mp hp with hp | hp
        · exact ⟨(s, d), by simp, (hm1 p hp).symm⟩
        · obtain ⟨e, he, hee⟩ := hm2 p hp
          exact ⟨e, by simp [he], hee⟩
    · obtain ⟨ex, he, hm⟩ := ih fs (out ++ ["Not found: " ++ pathStr s])
      refine ⟨ex, ?_, ?_⟩
      · simp only [doCopies, if_neg hc]
        exact he
      · intro p hp
        obtain ⟨e, he', hee⟩ := hm p hp
        exact ⟨e, by simp [he'], hee⟩

/-- The listing of the QR source directory is unchanged by the directory
and manifest stages: everything they add lies under the package root. -/
theorem listdir_after_copies (fs0 : FS) :
    listdir (doCopies copies (mkDirsStage fs0, [])).1 qrcodes_dir =
      listdir fs0 qrcodes_dir := by
  unfold listdir
  obtain ⟨fex, hf, hfm⟩ := doCopies_keys_ex copies (mkDirsStage fs0) []
  obtain ⟨dex, hd, hdm⟩ := mkDirsStage_dirs_ex fs0
  have hdirs : (doCopies copies (mkDirsStage fs0, [])).1.dirs = fs0.dirs ++ dex := by
    rw [doCopies_dirs, hd]
  rw [hf, mkDirsStage_files, hdirs]
  have hall1 : ∀ e ∈ copies, childName qrcodes_dir e.2 = none := by decide
  have hall2 : ∀ p ∈ stageDirs, childName qrcodes_dir p = none := by decide
  have hfex : fex.filterMap (childName qrcodes_dir) = [] := by
    rw [List.filterMap_eq_nil_iff]
    intro p hp
    obtain ⟨e, he, hee⟩ := hfm p hp
    rw [← hee]
    exact hall1 e he
  have hdex : dex.filterMap (childName qrcodes_dir) = [] := by
    rw [List.filterMap_eq_nil_iff]
    intro p hp
    exact hall2 p (hdm p hp)
  rw [List.append_assoc, List.filterMap_append, List.filterMap_append,
    List.filterMap_append, List.filterMap_append, hfex, hdex]
  simp

/- ### Archive extraction (the inverse operation C2 quantifies over) -/

/-- Inflating an archive at destination `dest`: the files and directories
its entries denote, as a fresh filesystem fragment (extraction assigns
fresh metadata, modelled as `0`). -/
def extractTo (es : List ZEntry) (dest : Path) : FS :=
  { files := (es.filter (fun e => !e.isDir)).map
      (fun e => (dest ++ e.rel, (⟨e.data, 0⟩ : FileRec))),
    dirs := (es.filter (fun e => e.isDir)).map (fun e => dest ++ e.rel),
    archives := [] }

/-- The archived regular-file entries of `zipEntries`. -/
def fileEntriesOf (l : List (Path × FileRec)) : List ZEntry :=
  l.filterMap (fun qv => if underDir package_dir qv.1 then
    some ⟨package_name :: relFrom package_dir qv.1, false, qv.2.content⟩ else none)

theorem zipEntries_not_isDir (fs : FS) :
    (zipEntries fs).filter (fun e => !e.isDir) = fileEntriesOf fs.files := by
  unfold zipEntries fileEntriesOf
  rw [List.filter_cons_of_neg (by simp), List.filter_append]
  have h1 : ∀ ds : List Path,
      ((ds.filter (underDir package_dir)).map
        (fun q => (⟨package_name :: relFrom package_dir q, true, ""⟩ : ZEntry))).filter
        (fun e => !e.isDir) = [] := by
    intro ds
    induction ds.filter (underDir package_dir) with
    | nil => rfl
    | cons q rest ih =>
      rw [List.map_cons, List.filter_cons_of_neg (by simp), ih]
  have h2 : ∀ l : List (Path × FileRec),
      (l.filterMap (fun qv => if underDir package_dir qv.1 then
        some (⟨package_name :: relFrom package_dir qv.1, false, qv.2.content⟩ : ZEntry)
        else none)).filter (fun e => !e.isDir) =
      l.filterMap (fun qv => if underDir package_dir qv.1 then
        some (⟨package_name :: relFrom package_dir qv.1, false, qv.2.content⟩ : ZEntry)
        else none) := by
    intro l
    induction l with
    | nil => rfl
    | cons qv l' ih =>
      rw [List.filterMap_cons]
      by_cases hu : underDir package_dir qv.1
      · simp only [if_pos hu]
        rw [List.filter_cons_of_pos (by simp), ih]
      · simp only [if_neg hu]
        exact ih
  rw [h1 fs.dirs, h2 fs.files, List.nil_append]

theorem zipEntries_isDir (fs : FS) :
    (zipEntries fs).filter (fun e => e.isDir) =
      (⟨[package_name], true, ""⟩ : ZEntry) ::
        (fs.dirs.filter (underDir package_dir)).map
          (fun q => ⟨package_name :: relFrom package_dir q, true, ""⟩) := by
  unfold zipEntries
  rw [List.filter_cons_of_pos (by simp), List.filter_append]
  have h1 : ((fs.dirs.filter (underDir package_dir)).map
      (fun q => (⟨package_name :: relFrom package_dir q, true, ""⟩ : ZEntry))).filter
      (fun e => e.isDir) =
      (fs.dirs.filter (underDir package_dir)).map
        (fun q => (⟨package_name :: relFrom package_dir q, true, ""⟩ : ZEntry)) := by
    induction fs.dirs.filter (underDir package_dir) with
    | nil => rfl
    | cons q rest ih =>
      rw [List.map_cons, List.filter_cons_of_pos (by simp), ih]
  have h2 : (fileEntriesOf fs.files).filter (fun e => e.isDir) = [] := by
    unfold fileEntriesOf
    induction fs.files with
    | nil => rfl
    | cons qv l' ih =>
      rw [List.filterMap_cons]
      by_cases hu : underDir package_dir qv.1
      · simp only [if_pos hu]
        rw [List.filter_cons_of_neg (by simp), ih]
      · simp only [if_neg hu]
        exact ih
  rw [h1]
  unfold fileEntriesOf at h2
  rw [h2, List.append_nil]

/-- `underDir` decomposes: a path strictly below the package root is the
root followed by its nonempty relative part. -/
theorem underDir_decomp (q : Path) (h : underDir package_dir q = true) :
    q = package_dir ++ relFrom package_dir q ∧ relFrom package_dir q ≠ [] := by
  unfold underDir at h
  rw [Bool.and_eq_true] at h
  obtain ⟨t, ht⟩ := List.isPrefixOf_iff_prefix.mp h.1
  have hlen : package_dir.length < q.length := by
    have := h.2
    simpa using this
  constructor
  · rw [← ht]
    unfold relFrom
    rw [List.drop_left]
  · unfold relFrom
    intro hc
    have := congrArg List.length hc
    simp at this
    omega

theorem underDir_append (rest : Path) (h : rest ≠ []) :
    underDir package_dir (package_dir ++ rest) = true := by
  unfold underDir
  rw [Bool.and_eq_true]
  constructor
  · exact List.isPrefixOf_iff_prefix.mpr ⟨rest, rfl⟩
  · simp
    exact List.length_pos.mpr h

theorem relFrom_append (rest : Path) :
    relFrom package_dir (package_dir ++ rest) = rest := by
  unfold relFrom
  rw [List.drop_left]

theorem fileEntriesOf_cons (q : Path) (fd : FileRec) (l : List (Path × FileRec)) :
    fileEntriesOf ((q, fd) :: l) =
      if underDir package_dir q then
        (⟨package_name :: relFrom package_dir q, false, fd.content⟩ : ZEntry) ::
          fileEntriesOf l
      else fileEntriesOf l := by
  unfold fileEntriesOf
  rw [List.filterMap_cons]
  by_cases hu : underDir package_dir q
  · simp only [if_pos hu]
  · simp only [if_neg hu]

/-- Looking up one extracted file: it matches the original file under the
package root, with the content preserved (metadata is fresh). -/
theorem extract_plook_files (l : List (Path × FileRec)) (dest rest : Path)
    (hr : rest ≠ []) :
    plook ((fileEntriesOf l).map (fun e => (dest ++ e.rel, (⟨e.data, 0⟩ : FileRec))))
      (dest ++ package_name :: rest) =
    (plook l (package_dir ++ rest)).map (fun fd => (⟨fd.content, 0⟩ : FileRec)) := by
  induction l with
  | nil => rfl
  | cons qv l' ih =>
    obtain ⟨q, fd⟩ := qv
    rw [fileEntriesOf_cons]
    by_cases hu : underDir package_dir q
    · rw [if_pos hu, List.map_cons, plook_cons, plook_cons]
      obtain ⟨hq, hne⟩ := underDir_decomp q hu
      by_cases he : q = package_dir ++ rest
      · have hrel : relFrom package_dir q = rest := by
          rw [he, relFrom_append]
        rw [if_pos (by rw [hrel]), if_pos he]
        rfl
      · have hkey : ¬ (dest ++ package_name :: relFrom package_dir q =
            dest ++ package_name :: rest) := by
          intro hc
          have h1 := List.append_cancel_left hc
          have h2 : relFrom package_dir q = rest := by
            injection h1
          exact he (by rw [hq, h2])
        rw [if_neg hkey, if_neg he]
        exact ih
    · rw [if_neg hu, plook_cons]
      have hne : ¬ (q = package_dir ++ rest) := by
        intro hc
        rw [hc] at hu
        exact hu (underDir_append rest hr)
      rw [if_neg hne]
      exact ih

/-- Membership of one extracted directory. -/
theorem extract_dirs_iff (fs : FS) (dest rest : Path) :
    (dest ++ package_name :: rest) ∈ (extractTo (zipEntries fs) dest).dirs ↔
      (rest = [] ∨ (rest ≠ [] ∧ package_dir ++ rest ∈ fs.dirs)) := by
  unfold extractTo
  rw [zipEntries_isDir, List.map_cons, List.map_map]
  constructor
  · intro h
    rcases List.mem_cons.mp h with h | h
    · left
      have h1 := List.append_cancel_left h
      simpa using h1
    · right
      obtain ⟨q, hq, he⟩ := List.mem_map.mp h
      obtain ⟨hqm, hqu⟩ := List.mem_filter.mp hq
      obtain ⟨hdec, hne⟩ := underDir_decomp q hqu
      simp only [Function.comp_apply] at he
      have h1 := List.append_cancel_left he
      have h2 : relFrom package_dir q = rest := by simpa using h1
      constructor
      · rw [← h2]
        exact hne
      · rw [← h2, ← hdec]
        exact hqm
  · rintro (rfl | ⟨hne, hmem⟩)
    · exact List.mem_cons_self _ _
    · apply List.mem_cons_of_mem
      apply List.mem_map.mpr
      refine ⟨package_dir ++ rest, List.mem_filter.mpr ⟨hmem, underDir_append rest hne⟩, ?_⟩
      simp only [Function.comp_apply]
      rw [relFrom_append]

/-- No extracted file sits at the package root itself. -/
theorem extract_plook_files_root (l : List (Path × FileRec)) (dest : Path) :
    plook ((fileEntriesOf l).map (fun e => (dest ++ e.rel, (⟨e.data, 0⟩ : FileRec))))
      (dest ++ [package_name]) = none := by
  induction l with
  | nil => rfl
  | cons qv l' ih =>
    obtain ⟨q, fd⟩ := qv
    rw [fileEntriesOf_cons]
    by_cases hu : underDir package_dir q
    · rw [if_pos hu, List.map_cons, plook_cons]
      obtain ⟨_, hne⟩ := underDir_decomp q hu
      rw [if_neg]
      · exact ih
      · intro hc
        have h1 := List.append_cancel_left hc
        injection h1 with _ h2
        exact hne h2
    · rw [if_neg hu]
      exact ih

/-- The pipeline leaves any path outside its write set untouched. -/
theorem run_plook_other (fs0 : FS) (p : Path)
    (h₁ : ∀ e ∈ copies, e.2 ≠ p) (h₂ : ∀ n, qrDst n ≠ p) (h₃ : p ≠ readme_path) :
    plook ((create_package fs0).1).files p = plook fs0.files p := by
  unfold create_package
  rw [setArch_files, writeTxt_plook_ne _ readme_path p readme_content h₃,
    doQR_plook_ne _ p h₂, doCopies_plook_ne copies _ _ p h₁, mkDirsStage_files]

theorem qrDst_ne_len (n : String) (p : Path) (h : p.length ≠ 7) : qrDst n ≠ p :=
  fun hc => h (by rw [← hc, qrDst_len])

theorem extractTo_files_zip (fs : FS) (dest : Path) :
    (extractTo (zipEntries fs) dest).files =
      (fileEntriesOf fs.files).map (fun e => (dest ++ e.rel, (⟨e.data, 0⟩ : FileRec))) := by
  unfold extractTo
  rw [zipEntries_not_isDir]

theorem zipEntries_setArch (fs : FS) (p : Path) (es : List ZEntry) :
    zipEntries (setArch fs p es) = zipEntries fs := rfl

/-- The run records the archive of its own final tree at the ZIP path,
replacing whatever archive was there. -/
theorem run_archive (fs0 : FS) :
    plook ((create_package fs0).1).archives zip_path =
      some (zipEntries ((create_package fs0).1)) := by
  unfold create_package
  rw [zipEntries_setArch]
  exact setArch_plook_self _ zip_path _

/- ### Second-run fixpoint machinery (for idempotence) -/

theorem doCopies_fix (l : List (Path × Path)) (fs : FS) (out : List String)
    (h : ∀ e ∈ l, (if fsExists fs e.1 then copy2 fs e.1 e.2 else fs) = fs) :
    (doCopies l (fs, out)).1 = fs := by
  induction l generalizing out with
  | nil => rfl
  | cons e rest ih =>
    obtain ⟨s, d⟩ := e
    have hstep := h (s, d) (by simp)
    have hrest : ∀ e ∈ rest, (if fsExists fs e.1 then copy2 fs e.1 e.2 else fs) = fs :=
      fun e he => h e (by simp [he])
    by_cases hc : fsExists fs s
    · rw [if_pos hc] at hstep
      simp only [doCopies, if_pos hc, hstep]
      exact ih _ hrest
    · simp only [doCopies, if_neg hc]
      exact ih _ hrest

theorem qrLoop_fix (names : List String) (fs : FS) (out : List String)
    (h : ∀ n ∈ names, strEndsWith n ".png" = true →
      copy2 fs (qrSrc n) (qrDst n) = fs) :
    (qrLoop names (fs, out)).1 = fs := by
  induction names generalizing out with
  | nil => rfl
  | cons n rest ih =>
    have hrest : ∀ m ∈ rest, strEndsWith m ".png" = true →
        copy2 fs (qrSrc m) (qrDst m) = fs := fun m hm => h m (by simp [hm])
    by_cases hc : strEndsWith n ".png"
    · simp only [qrLoop, if_pos hc, h n (by simp) hc]
      exact ih _ hrest
    · simp only [qrLoop, if_neg hc]
      exact ih _ hrest

theorem mkDirsStage_of_all (fs : FS) (h : ∀ q ∈ stageDirs, q ∈ fs.dirs) :
    mkDirsStage fs = fs := by
  have hp1 : ∀ a ∈ ancestors package_dir, a ∈ stageDirs := by decide
  have hp2 : ∀ a ∈ ancestors (package_dir ++ ["guides"]), a ∈ stageDirs := by decide
  have hp3 : ∀ a ∈ ancestors (package_dir ++ ["worksheets"]), a ∈ stageDirs := by decide
  have hp4 : ∀ a ∈ ancestors (package_dir ++ ["templates"]), a ∈ stageDirs := by decide
  have hp5 : ∀ a ∈ ancestors (package_dir ++ ["qrcodes"]), a ∈ stageDirs := by decide
  have hp6 : ∀ a ∈ ancestors (package_dir ++ ["resources"]), a ∈ stageDirs := by decide
  unfold mkDirsStage
  simp only [subdirs, List.foldl_cons, List.foldl_nil]
  rw [makedirs_of_mem fs package_dir (fun a ha => h a (hp1 a ha)),
    makedirs_of_mem fs _ (fun a ha => h a (hp2 a ha)),
    makedirs_of_mem fs _ (fun a ha => h a (hp3 a ha)),
    makedirs_of_mem fs _ (fun a ha => h a (hp4 a ha)),
    makedirs_of_mem fs _ (fun a ha => h a (hp5 a ha)),
    makedirs_of_mem fs _ (fun a ha => h a (hp6 a ha))]

theorem doQR_eta (fs : FS) (out : List String) :
    doQR (fs, out) =
      if fsExists fs qrcodes_dir then qrLoop (listdir fs qrcodes_dir) (fs, out)
      else (fs, out) := rfl

/- ### Key-set extension across the whole run -/

theorem qrLoop_keys_ex (names : List String) (fs : FS) (out : List String) :
    ∃ ex, ((qrLoop names (fs, out)).1.files).map Prod.fst =
        fs.files.map Prod.fst ++ ex ∧ ∀ p ∈ ex, ∃ m, p = qrDst m := by
  induction names generalizing fs out with
  | nil => exact ⟨[], by simp [qrLoop], by simp⟩
  | cons n rest ih =>
    by_cases hc : strEndsWith n ".png"
    · obtain ⟨ex1, he1, hm1⟩ := copy2_keys_ex fs (qrSrc n) (qrDst n)
      obtain ⟨ex2, he2, hm2⟩ := ih (copy2 fs (qrSrc n) (qrDst n))
        (out ++ ["Copied QR: " ++ n])
      refine ⟨ex1 ++ ex2, ?_, ?_⟩
      · simp only [qrLoop, if_pos hc]
        rw [he2, he1, List.append_assoc]
      · intro p hp
        rcases List.mem_append.mp hp with hp | hp
        · exact ⟨n, hm1 p hp⟩
        · exact hm2 p hp
    · simp only [qrLoop, if_neg hc]
      exact ih fs out

theorem doQR_keys_ex (st : FS × List String) :
    ∃ ex, ((doQR st).1.files).map Prod.fst = st.1.files.map Prod.fst ++ ex ∧
      ∀ p ∈ ex, ∃ m, p = qrDst m := by
  obtain ⟨fs, out⟩ := st
  rw [doQR_eta]
  by_cases hc : fsExists fs qrcodes_dir
  · rw [if_pos hc]
    exact qrLoop_keys_ex _ fs out
  · rw [if_neg hc]
    exact ⟨[], by simp, by simp⟩

theorem writeTxt_keys_ex (fs : FS) (p : Path) (c : String) :
    ∃ ex, ((writeTxt fs p c).files).map Prod.fst = fs.files.map Prod.fst ++ ex ∧
      ∀ q ∈ ex, q = p := by
  unfold writeTxt
  rcases keys_pset fs.files p ⟨c, 0⟩ with h | h
  · exact ⟨[], by simp [h], by simp⟩
  · exact ⟨[p], by simp [h], by simp⟩

/-- Every file key the whole run adds is a manifest destination, a QR
destination, or the README path. -/
theorem run_keys_ex (fs0 : FS) :
    ∃ ex, (((create_package fs0).1).files).map Prod.fst =
        fs0.files.map Prod.fst ++ ex ∧
      ∀ p ∈ ex, (∃ e ∈ copies, e.2 = p) ∨ (∃ m, p = qrDst m) ∨ p = readme_path := by
  obtain ⟨e1, h1, m1⟩ := doCopies_keys_ex copies (mkDirsStage fs0) []
  obtain ⟨e2, h2, m2⟩ := doQR_keys_ex (doCopies copies (mkDirsStage fs0, []))
  obtain ⟨e3, h3, m3⟩ := writeTxt_keys_ex (doQR (doCopies copies (mkDirsStage fs0, []))).1
    readme_path readme_content
  refine ⟨e1 ++ e2 ++ e3, ?_, ?_⟩
  · show ((setArch _ zip_path _).files).map Prod.fst = _
    rw [setArch_files, h3, h2, h1, mkDirsStage_files]
    simp [List.append_assoc]
  · intro p hp
    simp only [List.mem_append] at hp
    rcases hp with (hp | hp) | hp
    · exact Or.inl (m1 p hp)
    · exact Or.inr (Or.inl (m2 p hp))
    · exact Or.inr (Or.inr (m3 p hp))

theorem childName_qrDst (m : String) : childName qrcodes_dir (qrDst m) = none := by
  unfold childName
  rw [if_neg]
  intro hc
  rw [Bool.and_eq_true] at hc
  have h1 : (qrDst m).length = qrcodes_dir.length + 1 := by
    have := hc.1
    simpa using this
  rw [qrDst_len m] at h1
  have h2 : qrcodes_dir.length = 5 := by decide
  omega

theorem run_archives_other (fs0 : FS) (p : Path) (h : p ≠ zip_path) :
    plook ((create_package fs0).1).archives p = plook fs0.archives p := by
  unfold create_package
  show plook (pset _ zip_path _) p = _
  rw [plook_pset_ne _ zip_path p _ h, writeTxt_archives, doQR_archives,
    doCopies_archives, mkDirsStage_archives]

/-- Whether the QR source directory exists is unchanged by the run. -/
theorem run_fsExists_qrdir (fs0 : FS) :
    fsExists ((create_package fs0).1) qrcodes_dir = fsExists fs0 qrcodes_dir := by
  unfold fsExists
  rw [run_plook_other fs0 qrcodes_dir (by decide)
      (fun n => qrDst_ne_len n qrcodes_dir (by decide)) (by decide),
    run_archives_other fs0 qrcodes_dir (by decide),
    dmem_congr ((create_package fs0).1).dirs fs0.dirs qrcodes_dir ?_]
  rw [create_package_dirs, mem_mkDirsStage]
  have : qrcodes_dir ∉ stageDirs := by decide
  exact ⟨fun hh => hh.resolve_right this, Or.inl⟩

/-- The QR source directory's listing is unchanged by the run. -/
theorem run_listdir (fs0 : FS) :
    listdir ((create_package fs0).1) qrcodes_dir = listdir fs0 qrcodes_dir := by
  unfold listdir
  obtain ⟨fex, hf, hfm⟩ := run_keys_ex fs0
  obtain ⟨dex, hd, hdm⟩ := mkDirsStage_dirs_ex fs0
  have hdirs : ((create_package fs0).1).dirs = fs0.dirs ++ dex := by
    rw [create_package_dirs, hd]
  rw [hf, hdirs]
  have hall1 : ∀ e ∈ copies, childName qrcodes_dir e.2 = none := by decide
  have hall2 : ∀ p ∈ stageDirs, childName qrcodes_dir p = none := by decide
  have hrm : childName qrcodes_dir readme_path = none := by decide
  have hfex : fex.filterMap (childName qrcodes_dir) = [] := by
    rw [List.filterMap_eq_nil_iff]
    intro p hp
    rcases hfm p hp with ⟨e, he, hee⟩ | ⟨m, rfl⟩ | rfl
    · rw [← hee]
      exact hall1 e he
    · exact childName_qrDst m
    · exact hrm
  have hdex : dex.filterMap (childName qrcodes_dir) = [] := by
    rw [List.filterMap_eq_nil_iff]
    intro p hp
    exact hall2 p (hdm p hp)
  rw [List.append_assoc, List.filterMap_append, List.filterMap_append,
    List.filterMap_append, List.filterMap_append, hfex, hdex]
  simp

/- ### Claims -/

/-- Helper: every manifest entry with a regular-file source ends up copied
at its destination. -/
theorem run_manifest_dst (fs0 : FS) (s d : Path) (fd : FileRec)
    (hmem : (s, d) ∈ copies) (hs : plook fs0.files s = some fd) :
    plook ((create_package fs0).1).files d = some fd := by
  simp only [copies, List.mem_cons, List.not_mem_nil, or_false] at hmem
  rcases hmem with h|h|h|h|h|h|h
  · injection h with h1 h2; subst h1; subst h2
    exact run_plook_dst fs0 (copies.take 0) (copies.drop 1) _ _ fd (by decide) (by decide)
      (by decide) (fun n => qrDst_ne_sub n _ _ (by decide)) (by decide) hs
  · injection h with h1 h2; subst h1; subst h2
    exact run_plook_dst fs0 (copies.take 1) (copies.drop 2) _ _ fd (by decide) (by decide)
      (by decide) (fun n => qrDst_ne_sub n _ _ (by decide)) (by decide) hs
  · injection h with h1 h2; subst h1; subst h2
    exact run_plook_dst fs0 (copies.take 2) (copies.drop 3) _ _ fd (by decide) (by decide)
      (by decide) (fun n => qrDst_ne_sub n _ _ (by decide)) (by decide) hs
  · injection h with h1 h2; subst h1; subst h2
    exact run_plook_dst fs0 (copies.take 3) (copies.drop 4) _ _ fd (by decide) (by decide)
      (by decide) (fun n => qrDst_ne_sub n _ _ (by decide)) (by decide) hs
  · injection h with h1 h2; subst h1; subst h2
    exact run_plook_dst fs0 (copies.take 4) (copies.drop 5) _ _ fd (by decide) (by decide)
      (by decide) (fun n => qrDst_ne_sub n _ _ (by decide)) (by decide) hs
  · injection h with h1 h2; subst h1; subst h2
    exact run_plook_dst fs0 (copies.take 5) (copies.drop 6) _ _ fd (by decide) (by decide)
      (by decide) (fun n => qrDst_ne_sub n _ _ (by decide)) (by decide) hs
  · injection h with h1 h2; subst h1; subst h2
    exact run_plook_dst fs0 (copies.take 6) (copies.drop 7) _ _ fd (by decide) (by decide)
      (by decide) (fun n => qrDst_ne_sub n _ _ (by decide)) (by decide) hs

/-- C1: for every manifest entry whose source is a regular file on the
input state, after `create_package` the destination holds exactly the
source's record — identical byte content and copied metadata — whatever
previously existed at the destination. -/
theorem c1_manifest_copy (fs0 : FS) (s d : Path) (fd : FileRec)
    (hmem : (s, d) ∈ copies) (hs : plook fs0.files s = some fd) :
    plook ((create_package fs0).1).files d = some fd :=
  run_manifest_dst fs0 s d fd hmem hs

/-- Witness state for C1: only the first manifest source exists. -/
def c1fs : FS :=
  ⟨[(base_dir ++ ["teacher_guide_microbit_1st_grade.md"], ⟨"GUIDE", 5⟩)], [], []⟩

/-- Witness for C1 at a concrete state: the first manifest entry's source
is a file and the run places its exact record at the destination. -/
theorem c1_manifest_copy_witness :
    ((base_dir ++ ["teacher_guide_microbit_1st_grade.md"],
      package_dir ++ ["guides", "teacher_guide_microbit_1st_grade.md"]) ∈ copies) ∧
    plook c1fs.files (base_dir ++ ["teacher_guide_microbit_1st_grade.md"]) =
      some ⟨"GUIDE", 5⟩ ∧
    plook ((create_package c1fs).1).files
      (package_dir ++ ["guides", "teacher_guide_microbit_1st_grade.md"]) =
      some ⟨"GUIDE", 5⟩ :=
  ⟨by decide, rfl,
    c1_manifest_copy c1fs (base_dir ++ ["teacher_guide_microbit_1st_grade.md"])
      (package_dir ++ ["guides", "teacher_guide_microbit_1st_grade.md"])
      ⟨"GUIDE", 5⟩ (by decide) rfl⟩

/-- C3: for every manifest entry whose source does not exist at run time,
`create_package` completes, leaves the destination entry exactly as it was
on the input state (in particular it creates no file there), and logs
exactly one `Not found` line for that entry. -/
theorem c3_missing_source_skipped (fs0 : FS) (s d : Path)
    (hmem : (s, d) ∈ copies) (hs : fsExists fs0 s = false) :
    plook ((create_package fs0).1).files d = plook fs0.files d ∧
    lcount ((create_package fs0).2) ("Not found: " ++ pathStr s) = 1 := by
  simp only [copies, List.mem_cons, List.not_mem_nil, or_false] at hmem
  rcases hmem with h|h|h|h|h|h|h
  · injection h with h1 h2; subst h1; subst h2
    exact run_skip fs0 (copies.take 0) (copies.drop 1) _ _ (by decide) (by decide)
      (by decide) (by decide) (fun n => qrDst_ne_sub n _ _ (by decide)) (by decide)
      (by decide) (by decide) (by decide) hs
  · injection h with h1 h2; subst h1; subst h2
    exact run_skip fs0 (copies.take 1) (copies.drop 2) _ _ (by decide) (by decide)
      (by decide) (by decide) (fun n => qrDst_ne_sub n _ _ (by decide)) (by decide)
      (by decide) (by decide) (by decide) hs
  · injection h with h1 h2; subst h1; subst h2
    exact run_skip fs0 (copies.take 2) (copies.drop 3) _ _ (by decide) (by decide)
      (by decide) (by decide) (fun n => qrDst_ne_sub n _ _ (by decide)) (by decide)
      (by decide) (by decide) (by decide) hs
  · injection h with h1 h2; subst h1; subst h2
    exact run_skip fs0 (copies.take 3) (copies.drop 4) _ _ (by decide) (by decide)
      (by decide) (by decide) (fun n => qrDst_ne_sub n _ _ (by decide)) (by decide)
      (by decide) (by decide) (by decide) hs
  · injection h with h1 h2; subst h1; subst h2
    exact run_skip fs0 (copies.take 4) (copies.drop 5) _ _ (by decide) (by decide)
      (by decide) (by decide) (fun n => qrDst_ne_sub n _ _ (by decide)) (by decide)
      (by decide) (by decide) (by decide) hs
  · injection h with h1 h2; subst h1; subst h2
    exact run_skip fs0 (copies.take 5) (copies.drop 6) _ _ (by decide) (by decide)
      (by decide) (by decide) (fun n => qrDst_ne_sub n _ _ (by decide)) (by decide)
      (by decide) (by decide) (by decide) hs
  · injection h with h1 h2; subst h1; subst h2
    exact run_skip fs0 (copies.take 6) (copies.drop 7) _ _ (by decide) (by decide)
      (by decide) (by decide) (fun n => qrDst_ne_sub n _ _ (by decide)) (by decide)
      (by decide) (by decide) (by decide) hs

/-- Witness for C3 at a concrete state (the empty filesystem): the second
manifest source (the teacher-guide PDF) is absent, its destination stays
absent, and exactly one matching `Not found` line is logged. -/
theorem c3_missing_source_skipped_witness :
    ((base_dir ++ ["teacher_guide_microbit_1st_grade.pdf"],
      package_dir ++ ["guides", "teacher_guide_microbit_1st_grade.pdf"]) ∈ copies) ∧
    fsExists ⟨[], [], []⟩ (base_dir ++ ["teacher_guide_microbit_1st_grade.pdf"]) = false ∧
    plook ((create_package ⟨[], [], []⟩).1).files
      (package_dir ++ ["guides", "teacher_guide_microbit_1st_grade.pdf"]) =
      plook (FS.mk [] [] []).files
        (package_dir ++ ["guides", "teacher_guide_microbit_1st_grade.pdf"]) ∧
    lcount ((create_package ⟨[], [], []⟩).2)
      ("Not found: " ++ pathStr (base_dir ++ ["teacher_guide_microbit_1st_grade.pdf"])) = 1 := by
  refine ⟨by decide, rfl, ?_⟩
  have h := c3_missing_source_skipped ⟨[], [], []⟩
    (base_dir ++ ["teacher_guide_microbit_1st_grade.pdf"])
    (package_dir ++ ["guides", "teacher_guide_microbit_1st_grade.pdf"]) (by decide) rfl
  exact h

/-- Helper: effect of the QR stage on one listed `.png` file. -/
theorem run_qr_effect (fs0 : FS) (n : String) (fd : FileRec)
    (hqr : fsExists fs0 qrcodes_dir = true)
    (hn : n ∈ listdir fs0 qrcodes_dir)
    (hpng : strEndsWith n ".png" = true)
    (hfd : plook fs0.files (qrSrc n) = some fd) :
    plook ((create_package fs0).1).files (qrDst n) = some fd ∧
    ("Copied QR: " ++ n) ∈ (create_package fs0).2 := by
  have hex : fsExists (doCopies copies (mkDirsStage fs0, [])).1 qrcodes_dir = true := by
    rw [doCopies_fsExists_ne copies _ _ qrcodes_dir (by decide),
      fsExists_mkDirsStage fs0 qrcodes_dir (by decide)]
    exact hqr
  have hfd' : plook (doCopies copies (mkDirsStage fs0, [])).1.files (qrSrc n) = some fd := by
    rw [doCopies_plook_ne copies _ _ (qrSrc n) (copies_dst_ne_qrSrc n), mkDirsStage_files]
    exact hfd
  have hnd : (listdir fs0 qrcodes_dir).Nodup := List.nodup_dedup _
  have hq := qrLoop_copies (listdir fs0 qrcodes_dir)
    (doCopies copies (mkDirsStage fs0, [])).1
    (doCopies copies (mkDirsStage fs0, [])).2 n fd hnd hn hpng hfd'
  have hdoqr : doQR (doCopies copies (mkDirsStage fs0, [])) =
      qrLoop (listdir fs0 qrcodes_dir)
        ((doCopies copies (mkDirsStage fs0, [])).1,
         (doCopies copies (mkDirsStage fs0, [])).2) := by
    unfold doQR
    rw [if_pos hex, listdir_after_copies fs0]
  constructor
  · unfold create_package
    rw [setArch_files,
      writeTxt_plook_ne _ readme_path (qrDst n) readme_content (qrDst_ne_readme n),
      hdoqr]
    exact hq.1
  · simp only [create_package]
    rw [hdoqr]
    exact List.mem_append.mpr (Or.inl (List.mem_append.mpr (Or.inl hq.2)))

/-- C6: when the QR source directory exists, every listed `.png` file under
it is copied verbatim (same record) into the package's `qrcodes/`
subdirectory and the copy is reported with a console line. -/
theorem c6_qr_assets_copied (fs0 : FS) (n : String) (fd : FileRec)
    (hqr : fsExists fs0 qrcodes_dir = true)
    (hn : n ∈ listdir fs0 qrcodes_dir)
    (hpng : strEndsWith n ".png" = true)
    (hfd : plook fs0.files (qrSrc n) = some fd) :
    plook ((create_package fs0).1).files (qrDst n) = some fd ∧
    ("Copied QR: " ++ n) ∈ (create_package fs0).2 :=
  run_qr_effect fs0 n fd hqr hn hpng hfd

/-- Witness state for C6: a QR directory holding one image file. -/
def c6fs : FS := ⟨[(qrSrc "qr_a.png", ⟨"PNG", 3⟩)], [qrcodes_dir], []⟩

/-- Witness for C6 at a concrete state. -/
theorem c6_qr_assets_copied_witness :
    fsExists c6fs qrcodes_dir = true ∧
    "qr_a.png" ∈ listdir c6fs qrcodes_dir ∧
    strEndsWith "qr_a.png" ".png" = true ∧
    plook c6fs.files (qrSrc "qr_a.png") = some ⟨"PNG", 3⟩ ∧
    (plook ((create_package c6fs).1).files (qrDst "qr_a.png") = some ⟨"PNG", 3⟩ ∧
     ("Copied QR: " ++ "qr_a.png") ∈ (create_package c6fs).2) :=
  ⟨by decide, by decide, by decide, rfl,
    c6_qr_assets_copied c6fs "qr_a.png" ⟨"PNG", 3⟩ (by decide) (by decide) (by decide) rfl⟩

/-- C2: the archive recorded at `<base>/<package_name>.zip` replaces any
prior archive at that path, and extracting it at any destination
reproduces the package directory tree at archive time: file contents and
directory membership agree path-for-path. The hypothesis excludes the
degenerate state with a regular file at the package-root path itself,
where the real script would already have failed to create the root
directory. -/
theorem c2_zip_roundtrip (fs0 : FS) (dest : Path)
    (hroot : plook fs0.files package_dir = none) :
    ∃ es, plook ((create_package fs0).1).archives zip_path = some es ∧
      (∀ rest : Path,
        (plook (extractTo es dest).files (dest ++ package_name :: rest)).map
            FileRec.content =
          (plook ((create_package fs0).1).files (package_dir ++ rest)).map
            FileRec.content) ∧
      (∀ rest : Path,
        (dest ++ package_name :: rest) ∈ (extractTo es dest).dirs ↔
          (package_dir ++ rest) ∈ ((create_package fs0).1).dirs) := by
  refine ⟨zipEntries ((create_package fs0).1), run_archive fs0, ?_, ?_⟩
  · intro rest
    by_cases hr : rest = []
    · subst hr
      rw [extractTo_files_zip, extract_plook_files_root]
      have hR : plook ((create_package fs0).1).files (package_dir ++ ([] : Path)) =
          none := by
        rw [List.append_nil]
        rw [run_plook_other fs0 package_dir (by decide)
          (fun n => qrDst_ne_len n package_dir (by decide)) (by decide)]
        exact hroot
      rw [hR]
    · rw [extractTo_files_zip, extract_plook_files _ dest rest hr]
      cases plook ((create_package fs0).1).files (package_dir ++ rest) <;> rfl
  · intro rest
    rw [extract_dirs_iff]
    constructor
    · rintro (rfl | ⟨_, hmem⟩)
      · rw [List.append_nil, create_package_dirs, mem_mkDirsStage]
        exact Or.inr (by decide)
      · exact hmem
    · intro hmem
      by_cases hr : rest = []
      · exact Or.inl hr
      · exact Or.inr ⟨hr, hmem⟩

/-- Witness for C2 at a concrete state (the empty filesystem, extraction
under a fresh drive root). -/
theorem c2_zip_roundtrip_witness :
    plook (FS.mk [] [] []).files package_dir = none ∧
    (∃ es, plook ((create_package ⟨[], [], []⟩).1).archives zip_path = some es ∧
      (∀ rest : Path,
        (plook (extractTo es ["d:"]).files (["d:"] ++ package_name :: rest)).map
            FileRec.content =
          (plook ((create_package ⟨[], [], []⟩).1).files (package_dir ++ rest)).map
            FileRec.content) ∧
      (∀ rest : Path,
        (["d:"] ++ package_name :: rest) ∈ (extractTo es ["d:"]).dirs ↔
          (package_dir ++ rest) ∈ ((create_package ⟨[], [], []⟩).1).dirs)) :=
  ⟨rfl, c2_zip_roundtrip ⟨[], [], []⟩ ["d:"] rfl⟩

theorem qrSrc_ne_readme (n : String) : qrSrc n ≠ readme_path := by
  intro h
  have h4 := congrArg (fun l => l.get? 4) h
  simp [qrSrc, qrcodes_dir, base_dir, readme_path, package_dir, package_name] at h4

theorem copy2_eq_none (fs : FS) (s d : Path) (h : plook fs.files s = none) :
    copy2 fs s d = fs := by
  unfold copy2
  rw [h]

theorem copy2_eq_some (fs : FS) (s d : Path) (fd : FileRec)
    (h : plook fs.files s = some fd) :
    copy2 fs s d = { fs with files := pset fs.files d fd } := by
  unfold copy2
  rw [h]

theorem zipEntries_congr (fs fs' : FS) (h1 : fs.files = fs'.files)
    (h2 : fs.dirs = fs'.dirs) : zipEntries fs = zipEntries fs' := by
  unfold zipEntries
  rw [h1, h2]

theorem create_package_files_pre (fs : FS) :
    ((create_package fs).1).files =
      (writeTxt (doQR (doCopies copies (mkDirsStage fs, []))).1
        readme_path readme_content).files := by
  unfold create_package
  rw [setArch_files]

/-- Running the pipeline a second time changes nothing before the archive
stage: the state the second run archives is exactly the first run's final
state. -/
theorem run2_pre_archive (fs0 : FS) :
    writeTxt (doQR (doCopies copies (mkDirsStage ((create_package fs0).1), []))).1
      readme_path readme_content = (create_package fs0).1 := by
  have hstage : mkDirsStage ((create_package fs0).1) = (create_package fs0).1 := by
    apply mkDirsStage_of_all
    intro q hq
    rw [create_package_dirs, mem_mkDirsStage]
    exact Or.inr hq
  rw [hstage]
  have hall : ∀ e ∈ copies, (∀ e' ∈ copies, e'.2 ≠ e.1) ∧ e.1 ≠ readme_path ∧
      e.1.length ≠ 7 := by decide
  have hcfix : (doCopies copies ((create_package fs0).1, [])).1 =
      (create_package fs0).1 := by
    apply doCopies_fix
    intro e he
    by_cases hc : fsExists ((create_package fs0).1) e.1
    · rw [if_pos hc]
      have hsrc : plook ((create_package fs0).1).files e.1 = plook fs0.files e.1 :=
        run_plook_other fs0 e.1 (hall e he).1
          (fun n => qrDst_ne_len n e.1 (hall e he).2.2) (hall e he).2.1
      cases hfd : plook ((create_package fs0).1).files e.1 with
      | none => exact copy2_eq_none _ e.1 e.2 hfd
      | some fd =>
        have h0 : plook fs0.files e.1 = some fd := by rw [← hsrc]; exact hfd
        have hd : plook ((create_package fs0).1).files e.2 = some fd :=
          run_manifest_dst fs0 e.1 e.2 fd he h0
        rw [copy2_eq_some _ e.1 e.2 fd hfd, pset_same _ e.2 fd hd]
    · rw [if_neg hc]
  have hqfix : (doQR (doCopies copies ((create_package fs0).1, []))).1 =
      (create_package fs0).1 := by
    rw [show doCopies copies ((create_package fs0).1, []) =
      ((doCopies copies ((create_package fs0).1, [])).1,
       (doCopies copies ((create_package fs0).1, [])).2) from rfl]
    rw [hcfix, doQR_eta]
    by_cases hq : fsExists ((create_package fs0).1) qrcodes_dir
    · rw [if_pos hq]
      have hq0 : fsExists fs0 qrcodes_dir = true := by
        rw [← run_fsExists_qrdir fs0]
        exact hq
      apply qrLoop_fix
      intro n hnm hpng
      rw [run_listdir fs0] at hnm
      cases hfd : plook ((create_package fs0).1).files (qrSrc n) with
      | none => exact copy2_eq_none _ (qrSrc n) (qrDst n) hfd
      | some fd =>
        have hsrc : plook ((create_package fs0).1).files (qrSrc n) =
            plook fs0.files (qrSrc n) :=
          run_plook_other fs0 (qrSrc n) (copies_dst_ne_qrSrc n)
            (fun m => qrDst_ne_qrSrc m n) (qrSrc_ne_readme n)
        have h0 : plook fs0.files (qrSrc n) = some fd := by rw [← hsrc]; exact hfd
        have hd := (run_qr_effect fs0 n fd hq0 hnm hpng h0).1
        rw [copy2_eq_some _ (qrSrc n) (qrDst n) fd hfd, pset_same _ (qrDst n) fd hd]
    · rw [if_neg hq]
  rw [hqfix]
  unfold writeTxt
  rw [pset_same ((create_package fs0).1).files readme_path ⟨readme_content, 0⟩
    (readme_plook fs0)]

/- ### Failure-injected pipeline (for the error-propagation claim)

`create_package` contains no `try`/`except`: every OS-level failure of a
primitive (`os.makedirs`, `shutil.copy2`, `open(..,"w").write`,
`shutil.make_archive`) propagates to the caller. The model below reruns
the same pipeline where each primitive kind may be made to raise by an
injected fault flag; a raised error carries the filesystem and console
state at the moment of failure, so "no rollback" is the statement that
this state retains every earlier completed stage. -/

def mkDirsStageExc (omk : Bool) (fs : FS) : Except (FS × List String) FS :=
  if omk then .error (fs, []) else .ok (mkDirsStage fs)

def copiesExc (ocp : Bool) :
    List (Path × Path) → FS × List String → Except (FS × List String) (FS × List String)
  | [], st => .ok st
  | (s, d) :: rest, (fs, out) =>
    if fsExists fs s then
      if ocp then .error (fs, out)
      else copiesExc ocp rest (copy2 fs s d, out ++ ["Copied: " ++ basename s])
    else copiesExc ocp rest (fs, out ++ ["Not found: " ++ pathStr s])

def qrLoopExc (ocp : Bool) :
    List String → FS × List String → Except (FS × List String) (FS × List String)
  | [], st => .ok st
  | n :: rest, (fs, out) =>
    if strEndsWith n ".png" then
      if ocp then .error (fs, out)
      else qrLoopExc ocp rest (copy2 fs (qrSrc n) (qrDst n), out ++ ["Copied QR: " ++ n])
    else qrLoopExc ocp rest (fs, out)

def doQRExc (ocp : Bool) (st : FS × List String) :
    Except (FS × List String) (FS × List String) :=
  if fsExists st.1 qrcodes_dir then qrLoopExc ocp (listdir st.1 qrcodes_dir) st
  else .ok st

/-- The pipeline with fault injection: `omk`, `ocp`, `owr`, `oar` make the
directory-creation, copy, README-write and archive primitives raise. -/
def createExc (omk ocp owr oar : Bool) (fs0 : FS) :
    Except (FS × List String) (FS × List String) :=
  Except.bind (mkDirsStageExc omk fs0) (fun fs2 =>
  Except.bind (copiesExc ocp copies (fs2, [])) (fun st3 =>
  Except.bind (doQRExc ocp st3) (fun st4 =>
  if owr then .error st4
  else
    let fs5 := writeTxt st4.1 readme_path readme_content
    let out5 := st4.2 ++ ["Created README.md"]
    if oar then .error (fs5, out5)
    else
      let es := zipEntries fs5
      .ok (setArch fs5 zip_path es,
        out5 ++ ["\n✅ Package created: " ++ pathStr zip_path,
                 "📦 Total size: " ++ fmtKB (zipSize es) ++ " KB"]))))

theorem copiesExc_ok (l : List (Path × Path)) (st : FS × List String) :
    copiesExc false l st = .ok (doCopies l st) := by
  induction l generalizing st with
  | nil => obtain ⟨fs, out⟩ := st; rfl
  | cons e rest ih =>
    obtain ⟨s, d⟩ := e
    obtain ⟨fs, out⟩ := st
    by_cases h : fsExists fs s
    · simp only [copiesExc, doCopies, if_pos h, ih]
      rfl
    · simp only [copiesExc, doCopies, if_neg h, ih]

theorem qrLoopExc_ok (names : List String) (st : FS × List String) :
    qrLoopExc false names st = .ok (qrLoop names st) := by
  induction names generalizing st with
  | nil => obtain ⟨fs, out⟩ := st; rfl
  | cons n rest ih =>
    obtain ⟨fs, out⟩ := st
    by_cases h : strEndsWith n ".png"
    · simp only [qrLoopExc, qrLoop, if_pos h, ih]
      rfl
    · simp only [qrLoopExc, qrLoop, if_neg h, ih]

theorem doQRExc_ok (st : FS × List String) : doQRExc false st = .ok (doQR st) := by
  unfold doQRExc doQR
  by_cases h : fsExists st.1 qrcodes_dir
  · rw [if_pos h, if_pos h, qrLoopExc_ok]
  · rw [if_neg h, if_neg h]

theorem exbind_ok {ε α β : Type} (a : α) (f : α → Except ε β) :
    Except.bind (.ok a) f = f a := rfl

theorem exbind_error {ε α β : Type} (e : ε) (f : α → Except ε β) :
    Except.bind (.error e : Except ε α) f = .error e := rfl

theorem copiesExc_fail_first (s d : Path) (rest : List (Path × Path)) (fs : FS)
    (out : List String) (h : fsExists fs s = true) :
    copiesExc true ((s, d) :: rest) (fs, out) = .error (fs, out) := by
  simp only [copiesExc, if_pos h]
  rfl

/-- C7: OS-level filesystem failures propagate unhandled out of the run and
abort it with no rollback. Conjuncts: (1) with no fault the fallible
pipeline is the normal run; (2) a directory-creation failure aborts at
once, leaving the input state untouched, whatever later primitives would
have done; (3) a copy failure (shown at the first manifest entry, when its
source exists) aborts after the directories were made — those remain in
place; (4) a README-write failure aborts with every copy and QR stage
change still in place and nothing of the later stages; (5) an archive
failure aborts with the fully populated package directory (README
included) in place and the archive table untouched. -/
theorem c7_failures_propagate_no_rollback (fs0 : FS) :
    createExc false false false false fs0 = .ok (create_package fs0) ∧
    (∀ ocp owr oar, createExc true ocp owr oar fs0 = .error (fs0, [])) ∧
    (fsExists fs0 (base_dir ++ ["teacher_guide_microbit_1st_grade.md"]) = true →
      createExc false true false false fs0 = .error (mkDirsStage fs0, [])) ∧
    createExc false false true false fs0 =
      .error (doQR (doCopies copies (mkDirsStage fs0, []))) ∧
    (createExc false false false true fs0 =
      .error (writeTxt (doQR (doCopies copies (mkDirsStage fs0, []))).1
          readme_path readme_content,
        (doQR (doCopies copies (mkDirsStage fs0, []))).2 ++ ["Created README.md"]) ∧
      (writeTxt (doQR (doCopies copies (mkDirsStage fs0, []))).1
        readme_path readme_content).archives = fs0.archives) := by
  refine ⟨?_, fun ocp owr oar => rfl, ?_, ?_, ?_, ?_⟩
  · simp only [createExc, show mkDirsStageExc false fs0 = .ok (mkDirsStage fs0) from rfl,
      exbind_ok, copiesExc_ok, doQRExc_ok]
    rfl
  · intro h
    have h2 : fsExists (mkDirsStage fs0)
        (base_dir ++ ["teacher_guide_microbit_1st_grade.md"]) = true := by
      rw [fsExists_mkDirsStage fs0 _ (by decide)]
      exact h
    have hco : copiesExc true copies (mkDirsStage fs0, []) =
        .error (mkDirsStage fs0, []) := by
      rw [show copies = (base_dir ++ ["teacher_guide_microbit_1st_grade.md"],
        package_dir ++ ["guides", "teacher_guide_microbit_1st_grade.md"]) ::
        copies.tail from rfl]
      exact copiesExc_fail_first _ _ _ _ _ h2
    simp only [createExc, show mkDirsStageExc false fs0 = .ok (mkDirsStage fs0) from rfl,
      exbind_ok, hco, exbind_error]
  · simp only [createExc, show mkDirsStageExc false fs0 = .ok (mkDirsStage fs0) from rfl,
      exbind_ok, copiesExc_ok, doQRExc_ok]
    rfl
  · simp only [createExc, show mkDirsStageExc false fs0 = .ok (mkDirsStage fs0) from rfl,
      exbind_ok, copiesExc_ok, doQRExc_ok]
    rfl
  · rw [writeTxt_archives, doQR_archives, doCopies_archives, mkDirsStage_archives]

/-- Witness for C7 at a concrete state with the first manifest source
present: the injected copy failure aborts the run with only the created
directories in place. -/
theorem c7_failures_propagate_no_rollback_witness :
    fsExists c1fs (base_dir ++ ["teacher_guide_microbit_1st_grade.md"]) = true ∧
    createExc false true false false c1fs = .error (mkDirsStage c1fs, []) :=
  ⟨by decide, (c7_failures_propagate_no_rollback c1fs).2.2.1 (by decide)⟩

/-- C5: running `create_package` twice in succession, with no external
change in between (the model has no external actors, so the second run
starts exactly from the first run's final state), leaves an archive whose
content equals the single run's archive. -/
theorem c5_second_run_same_archive (fs0 : FS) :
    plook ((create_package ((create_package fs0).1)).1).archives zip_path =
      plook ((create_package fs0).1).archives zip_path := by
  rw [run_archive ((create_package fs0).1), run_archive fs0]
  have hstage : mkDirsStage ((create_package fs0).1) = (create_package fs0).1 := by
    apply mkDirsStage_of_all
    intro q hq
    rw [create_package_dirs, mem_mkDirsStage]
    exact Or.inr hq
  have hf : ((create_package ((create_package fs0).1)).1).files =
      ((create_package fs0).1).files :=
    (create_package_files_pre ((create_package fs0).1)).trans
      (congrArg FS.files (run2_pre_archive fs0))
  have hd : ((create_package ((create_package fs0).1)).1).dirs =
      ((create_package fs0).1).dirs := by
    rw [create_package_dirs ((create_package fs0).1), hstage]
  rw [zipEntries_congr _ _ hf hd]

/-- C4: after any run of `create_package`, the package root and its five
fixed subdirectories (guides, worksheets, templates, qrcodes, resources)
exist, regardless of which manifest source files were present; and
directory creation is idempotent — repeating `makedirs` on directories
that already exist changes nothing (so it cannot fail on them). -/
theorem c4_package_subdirs_exist (fs0 : FS) :
    package_dir ∈ ((create_package fs0).1).dirs ∧
    (∀ d ∈ subdirs, package_dir ++ [d] ∈ ((create_package fs0).1).dirs) ∧
    (∀ fs p, makedirs (makedirs fs p) p = makedirs fs p) := by
  refine ⟨?_, ?_, fun fs p => makedirs_idem fs p⟩
  · rw [create_package_dirs, mem_mkDirsStage]
    exact Or.inr (by decide)
  · intro d hd
    rw [create_package_dirs, mem_mkDirsStage]
    fin_cases hd <;> exact Or.inr (by decide)

/-- A `Copied QR:` line is distinguishable from any string whose first nine
characters are not `Copied QR`. -/
theorem copiedqr_ne_any (n t : String) (ht : t.data.take 9 ≠ "Copied QR".data) :
    "Copied QR: " ++ n ≠ t := by
  intro hc
  apply ht
  rw [← hc, String.data_append, List.take_append_of_le_length (by decide)]
  decide

/-- Every line the manifest stage logs comes from one of its entries. -/
theorem doCopies_out_shape (l : List (Path × Path)) (fs : FS) (out : List String) :
    ∀ t ∈ (doCopies l (fs, out)).2, t ∈ out ∨
      ∃ e ∈ l, t = "Copied: " ++ basename e.1 ∨ t = "Not found: " ++ pathStr e.1 := by
  induction l generalizing fs out with
  | nil => exact fun t ht => Or.inl ht
  | cons e rest ih =>
    obtain ⟨s, d⟩ := e
    intro t ht
    by_cases hc : fsExists fs s
    · simp only [doCopies, if_pos hc] at ht
      rcases ih _ _ t ht with hin | ⟨e', he', hor⟩
      · rcases List.mem_append.mp hin with hin | hin
        · exact Or.inl hin
        · simp only [List.mem_singleton] at hin
          exact Or.inr ⟨(s, d), by simp, Or.inl hin⟩
      · exact Or.inr ⟨e', by simp [he'], hor⟩
    · simp only [doCopies, if_neg hc] at ht
      rcases ih _ _ t ht with hin | ⟨e', he', hor⟩
      · rcases List.mem_append.mp hin with hin | hin
        · exact Or.inl hin
        · simp only [List.mem_singleton] at hin
          exact Or.inr ⟨(s, d), by simp, Or.inr hin⟩
      · exact Or.inr ⟨e', by simp [he'], hor⟩

/-- C8 as amended: when the QR source directory is absent, the scan is
skipped **silently** — the console log is exactly the manifest-stage lines
followed by the three fixed closing lines, no `Copied QR` line appears, and
the run continues through the README and archive stages without raising. -/
theorem c8_qr_dir_absent_silent_skip (fs0 : FS)
    (h : fsExists fs0 qrcodes_dir = false) :
    (create_package fs0).2 = (doCopies copies (mkDirsStage fs0, [])).2 ++
      ["Created README.md",
       "\n✅ Package created: " ++ pathStr zip_path,
       "📦 Total size: " ++ fmtKB (zipSize (zipEntries
         (writeTxt (doCopies copies (mkDirsStage fs0, [])).1
           readme_path readme_content))) ++ " KB"] ∧
    (∀ n, ("Copied QR: " ++ n) ∉ (create_package fs0).2) ∧
    plook ((create_package fs0).1).files readme_path = some ⟨readme_content, 0⟩ ∧
    plook ((create_package fs0).1).archives zip_path =
      some (zipEntries ((create_package fs0).1)) := by
  have hex : fsExists (doCopies copies (mkDirsStage fs0, [])).1 qrcodes_dir = false := by
    rw [doCopies_fsExists_ne copies _ _ qrcodes_dir (by decide),
      fsExists_mkDirsStage fs0 qrcodes_dir (by decide)]
    exact h
  have hskip : doQR (doCopies copies (mkDirsStage fs0, [])) =
      doCopies copies (mkDirsStage fs0, []) := by
    unfold doQR
    rw [if_neg (by rw [hex]; simp)]
  have hout : (create_package fs0).2 = (doCopies copies (mkDirsStage fs0, [])).2 ++
      ["Created README.md",
       "\n✅ Package created: " ++ pathStr zip_path,
       "📦 Total size: " ++ fmtKB (zipSize (zipEntries
         (writeTxt (doCopies copies (mkDirsStage fs0, [])).1
           readme_path readme_content))) ++ " KB"] := by
    simp only [create_package]
    rw [hskip]
    simp [List.append_assoc]
  refine ⟨hout, ?_, readme_plook fs0, run_archive fs0⟩
  intro n hn
  rw [hout] at hn
  rcases List.mem_append.mp hn with hn | hn
  · rcases doCopies_out_shape copies (mkDirsStage fs0) [] _ hn with hin | ⟨e, he, hor⟩
    · cases hin
    · have hne : ("Copied QR: " ++ n ≠ "Copied: " ++ basename e.1) ∧
          ("Copied QR: " ++ n ≠ "Not found: " ++ pathStr e.1) := by
        have hb : ∀ e ∈ copies, (("Copied: " ++ basename e.1).data.take 9 ≠
            "Copied QR".data) ∧ (("Not found: " ++ pathStr e.1).data.take 9 ≠
            "Copied QR".data) := by decide
        exact ⟨copiedqr_ne_any n _ (hb e he).1, copiedqr_ne_any n _ (hb e he).2⟩
      rcases hor with hor | hor
      · exact hne.1 hor
      · exact hne.2 hor
  · simp only [List.mem_cons, List.not_mem_nil, or_false] at hn
    rcases hn with hn | hn | hn
    · exact copiedqr_ne_any n _ (by decide) hn
    · exact copiedqr_ne_any n _ (by decide) hn
    · refine copiedqr_ne_any n _ ?_ hn
      rw [String.append_assoc, String.data_append,
        List.take_append_of_le_length (by decide)]
      decide

/-- Witness for the amended C8 at a concrete state. -/
theorem c8_qr_dir_absent_silent_skip_witness :
    fsExists (FS.mk [] [] []) qrcodes_dir = false ∧
    ((create_package ⟨[], [], []⟩).2 =
      (doCopies copies (mkDirsStage ⟨[], [], []⟩, [])).2 ++
        ["Created README.md",
         "\n✅ Package created: " ++ pathStr zip_path,
         "📦 Total size: " ++ fmtKB (zipSize (zipEntries
           (writeTxt (doCopies copies (mkDirsStage ⟨[], [], []⟩, [])).1
             readme_path readme_content))) ++ " KB"] ∧
      (∀ n, ("Copied QR: " ++ n) ∉ (create_package ⟨[], [], []⟩).2) ∧
      plook ((create_package ⟨[], [], []⟩).1).files readme_path =
        some ⟨readme_content, 0⟩ ∧
      plook ((create_package ⟨[], [], []⟩).1).archives zip_path =
        some (zipEntries ((create_package ⟨[], [], []⟩).1))) :=
  ⟨rfl, c8_qr_dir_absent_silent_skip ⟨[], [], []⟩ rfl⟩

/-- Counterexample to C8 as stated: on a state with no QR source directory
(the empty filesystem) the run logs nothing at all about the QR scan —
every console line it prints lacks the substring `qrcodes`, so the skipped
scan is not logged. -/
theorem c8_counterexample :
    fsExists (FS.mk [] [] []) qrcodes_dir = false ∧
    (create_package ⟨[], [], []⟩).2 =
      ["Not found: c:\\Users\\atchy\\Streamli\\teacher_guide_microbit_1st_grade.md",
       "Not found: c:\\Users\\atchy\\Streamli\\teacher_guide_microbit_1st_grade.pdf",
       "Not found: c:\\Users\\atchy\\Streamli\\student_worksheet_microbit_1st_grade.md",
       "Not found: c:\\Users\\atchy\\Streamli\\student_worksheet_microbit_1st_grade.pdf",
       "Not found: c:\\Users\\atchy\\Streamli\\templates\\makecode_smile_template.ts",
       "Not found: c:\\Users\\atchy\\Streamli\\templates\\microbit_smile_template.py",
       "Not found: c:\\Users\\atchy\\Streamli\\templates\\README_generate_hex.md",
       "Created README.md",
       "\n✅ Package created: c:\\Users\\atchy\\Streamli\\microbit_1st_grade_lesson_package.zip",
       "📦 Total size: 0.7 KB"] ∧
    (∀ t ∈ (create_package (FS.mk [] [] [])).2,
      ¬ List.IsInfix "qrcodes".data t.data) := by
  refine ⟨rfl, by decide, by decide⟩

/-- C9: after every run a `README.md` exists at the package root holding
exactly the fixed rendered template text (so any prior README is
overwritten), and that text contains all five subdirectory names. -/
theorem c9_readme_exists_with_subdir_names (fs0 : FS) :
    plook ((create_package fs0).1).files readme_path = some ⟨readme_content, 0⟩ ∧
    ∀ d ∈ subdirs, List.IsInfix d.data readme_content.data := by
  refine ⟨readme_plook fs0, ?_⟩
  intro d hd
  fin_cases hd <;> decide

/-- C10: the README bytes written by `create_package` are one fixed
constant — the content found at the README path after any two runs is
identical, whatever the two starting filesystem states were. -/
theorem c10_readme_content_state_independent (fs1 fs2 : FS) :
    (plook ((create_package fs1).1).files readme_path).map FileRec.content =
    (plook ((create_package fs2).1).files readme_path).map FileRec.content := by
  rw [readme_plook fs1, readme_plook fs2]

end CreatePackage
